import Mathlib

/-!
Shallow embedding of the core of the bicycle-architecture compiler
(crates: bicycle_cliffords, bicycle_common / bicycle_isa, bicycle_compiler,
bicycle_numerics, pbc_gross; the repository contains both a current
`crates/` layout and a legacy `src/` layout and both are embedded where
they differ).  Machine integers (u32, u64, usize) are modelled as `Nat`;
all the bit manipulations below stay well inside the 32-bit range on the
24-bit packed PauliString representation, so no wrap-around modelling is
needed.  Fallible code (Rust panics, `unwrap`, `unreachable!`) is modelled
with `Option`.
-/

/-- Single-qubit Pauli, from bicycle_isa / bicycle_common `enum Pauli`. -/
inductive Pauli where
  | I : Pauli
  | X : Pauli
  | Z : Pauli
  | Y : Pauli
deriving DecidableEq, Repr

/-- From `Pauli::anticommuting`: the pair of Paulis anticommuting with this one. -/
def Pauli.anticommuting : Pauli → Option (Pauli × Pauli)
  | .I => none
  | .X => some (.Z, .Y)
  | .Z => some (.X, .Y)
  | .Y => some (.X, .Z)

/-- Number of set bits of a natural number, modelling `u32::count_ones`. -/
def countOnes (n : Nat) : Nat :=
  if h : n = 0 then 0 else n % 2 + countOnes (n / 2)
decreasing_by exact Nat.div_lt_self (Nat.pos_of_ne_zero h) (by omega)

/-- A packed 12-qubit Pauli string: bit `i` is the X component of qubit `i`,
bit `i+12` its Z component (`PauliString(pub u32)`). -/
abbrev PauliString := Nat

/-- From `PauliString::commutes_with`: parity of the overlap of the symplectic
transpose of `a` with `b`. -/
def commutes_with (a b : PauliString) : Bool :=
  let self_z := a >>> 12
  let self_x := a ^^^ (self_z <<< 12)
  let self_transpose := (self_x <<< 12) ||| self_z
  countOnes (self_transpose &&& b) % 2 == 0

/-- From `impl Mul for PauliString`: multiplication modulo phase is XOR. -/
def mulP (a b : PauliString) : PauliString := a ^^^ b

/-- From `PauliString::conjugate_with`: apply `rhs` from the left iff it
anti-commutes with `self`. -/
def conjugate_with (a rhs : PauliString) : PauliString :=
  if commutes_with a rhs then a else mulP a rhs

/-- From `PauliString::pivot_bits`: the two pivot bits (qubit 0). -/
def pivot_bits (a : PauliString) : PauliString :=
  a &&& (1 ||| (1 <<< 12))

/-- From `PauliString::zero_pivot`: clear bits 0 and 12, via the 32-bit
complement mask `!(1 << 12 | 1)`. -/
def zero_pivot (a : PauliString) : PauliString :=
  a &&& ((2 ^ 32 - 1) ^^^ ((1 <<< 12) ||| 1))

/-- From `PauliString::get_pauli`: read qubit `i` from its X/Z bit pair. -/
def get_pauli (a : PauliString) (i : Nat) : Pauli :=
  match a.testBit i, a.testBit (i + 12) with
  | true, true => .Y
  | true, false => .X
  | false, true => .Z
  | false, false => .I

/-- Constant `X1`: Pauli X on the pivot qubit. -/
def X1 : PauliString := 1

/-- Constant `Z1`: Pauli Z on the pivot qubit. -/
def Z1 : PauliString := 1 <<< 12

/-- Constant `Y1`: Pauli Y on the pivot qubit. -/
def Y1 : PauliString := 1 ||| (1 <<< 12)

/-- The ZMod-2 valued bit `i` of `n`, used to reason about parities. -/
def bit2 (n i : Nat) : ZMod 2 :=
  if n.testBit i then 1 else 0

/-- The symplectic form on 24-bit Pauli strings, as a sum over the 12 qubits.
`commutes_with a b` decides whether this form vanishes. -/
def sform (a b : Nat) : ZMod 2 :=
  ∑ i ∈ Finset.range 12, (bit2 a i * bit2 b (i + 12) + bit2 a (i + 12) * bit2 b i)

/-- From bicycle_isa / bicycle_common `struct AutomorphismData`: an element of
the shift-automorphism group ℤ₆ × ℤ₆.  The constructor normalises modulo 6. -/
structure AutomorphismData where
  x : Nat
  y : Nat
deriving DecidableEq, Repr

/-- From `AutomorphismData::new`: reduce both components mod 6. -/
def AutomorphismData.new (x y : Nat) : AutomorphismData :=
  ⟨x % 6, y % 6⟩

/-- From `AutomorphismData::nr_generators`: the number of elementary shift
generators needed to realise the element (Rust `match` on `(x, y)`). -/
def AutomorphismData.nr_generators (a : AutomorphismData) : Nat :=
  match a.x, a.y with
  | 0, 0 => 0
  | 3, 3 => 1
  | 3, _ => 2
  | _, 3 => 2
  | _, _ => 1

/-- From `AutomorphismData::inv`: the inverse automorphism `(6-x, 6-y)` mod 6. -/
def AutomorphismData.inv (a : AutomorphismData) : AutomorphismData :=
  AutomorphismData.new (6 - a.x) (6 - a.y)

/-- From `struct TwoBases`: the measurement bases on the two pivot qubits.
The Rust struct derives `Default` (giving `(I, I)`), so arbitrary field values
are representable; validity is enforced only by `TwoBases::new`. -/
structure TwoBases where
  p1 : Pauli
  p7 : Pauli
deriving DecidableEq, Repr

/-- From `TwoBases::new`: both bases identity is rejected. -/
def TwoBases.new (p1 p7 : Pauli) : Option TwoBases :=
  match p1, p7 with
  | .I, .I => none
  | _, _ => some ⟨p1, p7⟩

/-- From `TwoBases::get_basis_1`. -/
def TwoBases.get_basis_1 (t : TwoBases) : Pauli := t.p1

/-- From `TwoBases::get_basis_7`. -/
def TwoBases.get_basis_7 (t : TwoBases) : Pauli := t.p7

/-- From `struct ParallelMeasureData`. -/
structure ParallelMeasureData where
  p : Pauli
deriving DecidableEq, Repr

/-- From `struct TGateData`. -/
structure TGateData where
  basis : Pauli
  primed : Bool
  adjoint : Bool
deriving DecidableEq, Repr

/-- From `TGateData::new`: the identity basis is rejected. -/
def TGateData.new (basis : Pauli) (primed adjoint : Bool) : Option TGateData :=
  match basis with
  | .I => none
  | _ => some ⟨basis, primed, adjoint⟩

/-- From `TGateData::get_basis`. -/
def TGateData.get_basis (t : TGateData) : Pauli := t.basis

/-- From `enum BicycleISA`: the full low-level opcode set. -/
inductive BicycleISA where
  | SyndromeCycle : BicycleISA
  | CSSInitZero : BicycleISA
  | CSSInitPlus : BicycleISA
  | DestructiveZ : BicycleISA
  | DestructiveX : BicycleISA
  | Automorphism : AutomorphismData → BicycleISA
  | Measure : TwoBases → BicycleISA
  | JointMeasure : TwoBases → BicycleISA
  | ParallelMeasure : ParallelMeasureData → BicycleISA
  | JointBellInit : BicycleISA
  | JointTransversalCX : BicycleISA
  | InitT : BicycleISA
  | TGate : TGateData → BicycleISA
deriving DecidableEq, Repr

/-- From `struct BasisChanger` (identical in both layouts): a renaming of the
non-trivial Pauli bases of the pivot qubit. -/
structure BasisChanger where
  x : Pauli
  y : Pauli
  z : Pauli
deriving DecidableEq, Repr

/-- From `BasisChanger::new`: the three images must be pairwise distinct. -/
def BasisChanger.new (x y z : Pauli) : Option BasisChanger :=
  if x = y ∨ y = z ∨ z = x then none else some ⟨x, y, z⟩

/-- From `impl Default for BasisChanger`: the identity changer. -/
def BasisChanger.default : BasisChanger := ⟨.X, .Y, .Z⟩

/-- From `BasisChanger::change_pauli`: apply the renaming; identity is fixed. -/
def BasisChanger.change_pauli (c : BasisChanger) (p : Pauli) : Pauli :=
  match p with
  | .I => .I
  | .Z => c.z
  | .X => c.x
  | .Y => c.y

/-- From `BasisChanger::two_bases` (both layouts): permute only the `p1`
coordinate; the `unwrap` on `TwoBases::new` is modelled by `Option`. -/
def BasisChanger.two_bases (c : BasisChanger) (bases : TwoBases) : Option TwoBases :=
  TwoBases.new (c.change_pauli bases.get_basis_1) bases.get_basis_7

/-- From crates/pbc_gross `BasisChanger::change_isa`: `Measure` stays `Measure`,
`JointMeasure` stays `JointMeasure`, `TGate` has its basis permuted,
`Automorphism` is invariant, anything else is `unimplemented!`. -/
def BasisChanger.change_isa (c : BasisChanger) (instr : BicycleISA) : Option BicycleISA :=
  match instr with
  | .Measure bases => (c.two_bases bases).map .Measure
  | .JointMeasure bases => (c.two_bases bases).map .JointMeasure
  | .TGate data =>
      (TGateData.new (c.change_pauli data.get_basis) data.primed data.adjoint).map .TGate
  | .Automorphism _ => some instr
  | _ => none

/-- From the legacy src/pbc_gross `BasisChanger::change_isa`: here the arms for
`Measure` and `JointMeasure` are merged and both produce a `JointMeasure`. -/
def BasisChanger.change_isa_legacy (c : BasisChanger) (instr : BicycleISA) : Option BicycleISA :=
  match instr with
  | .Measure bases => (c.two_bases bases).map .JointMeasure
  | .JointMeasure bases => (c.two_bases bases).map .JointMeasure
  | .TGate data =>
      (TGateData.new (c.change_pauli data.get_basis) data.primed data.adjoint).map .TGate
  | .Automorphism _ => some instr
  | _ => none

/-- From `type Operation = Vec<(usize, BicycleISA)>`. -/
abbrev Operation := List (Nat × BicycleISA)

/-- From `struct PathArchitecture` (both layouts share the fields). -/
structure PathArchitecture where
  data_blocks : Nat
deriving DecidableEq, Repr

/-- From crates/bicycle_compiler `PathArchitecture::qubits`:
`data_blocks * 11`. -/
def PathArchitecture.qubits (a : PathArchitecture) : Nat :=
  a.data_blocks * 11

/-- From the legacy src/pbc_gross `PathArchitecture::qubits`:
`data_blocks * 11 - 1` (one qubit is reserved next to the factory). -/
def PathArchitecture.qubits_legacy (a : PathArchitecture) : Nat :=
  a.data_blocks * 11 - 1

/-- From `PathArchitecture::validate_operation` (identical in both layouts):
a length-1 operation is valid; otherwise the first two block indices must be
adjacent.  Indexing `op[0]`/`op[1]` panics on the empty operation, modelled by
`none`. -/
def PathArchitecture.validate_operation (_a : PathArchitecture) (op : Operation) :
    Option Bool :=
  if op.length = 1 then
    some true
  else
    match op with
    | e0 :: e1 :: _ => some (decide (Nat.dist e0.1 e1.1 = 1))
    | _ => none

/-- From `Vec::resize_with(len.max(i+1), Default::default)` on the history of
`remove_duplicate_measurements_chunked`: grow with `None` entries. -/
def resizeHistory (h : List (Option BicycleISA)) (n : Nat) :
    List (Option BicycleISA) :=
  h ++ List.replicate (n - h.length) none

/-- The filter closure of `remove_duplicate_measurements_chunked`: walk the
entries of one operation, growing the history, returning `false` at the first
entry that is a `Measure` equal to the block's recorded instruction (without
recording it), and recording every other scanned instruction. -/
def dupCheck : List (Option BicycleISA) → Operation →
    List (Option BicycleISA) × Bool
  | h, [] => (h, true)
  | h, (i, instr) :: rest =>
      let h2 := resizeHistory h (max h.length (i + 1))
      match instr with
      | .Measure b =>
          if h2.getD i none = some (.Measure b) then (h2, false)
          else dupCheck (h2.set i (some (.Measure b))) rest
      | _ => dupCheck (h2.set i (some instr)) rest

/-- The per-chunk filter of `remove_duplicate_measurements_chunked`, threading
the mutable history through the `filter` closure. -/
def filterOpsChunk : List (Option BicycleISA) → List Operation →
    List (Option BicycleISA) × List Operation
  | h, [] => (h, [])
  | h, op :: rest =>
      let r := dupCheck h op
      let r2 := filterOpsChunk r.1 rest
      (r2.1, if r.2 then op :: r2.2 else r2.2)

/-- The chunk loop of `remove_duplicate_measurements_chunked`. -/
def removeDupGo : List (Option BicycleISA) → List (List Operation) →
    List (List Operation)
  | _, [] => []
  | h, chunk :: rest =>
      let r := filterOpsChunk h chunk
      r.2 :: removeDupGo r.1 rest

/-- From crates/bicycle_compiler `remove_duplicate_measurements_chunked`:
stateful duplicate-measurement filtering that respects chunk boundaries. -/
def remove_duplicate_measurements_chunked (chunks : List (List Operation)) :
    List (List Operation) :=
  removeDupGo [] chunks

/-- Modelled from the spec: "filter out any [operation] whose *every*
`(block, instr)` entry is a `Measure(...)` identical to that block's history".
Decides whether one entry is such a duplicate against the current history. -/
def isDupEntry (h : List (Option BicycleISA)) (e : Nat × BicycleISA) : Bool :=
  match e.2 with
  | .Measure b => h.getD e.1 none == some (.Measure b)
  | _ => false

/-- Modelled from the spec: record all instructions of a kept operation into
the per-block history. -/
def updateHistorySpec (h : List (Option BicycleISA)) (op : Operation) :
    List (Option BicycleISA) :=
  op.foldl
    (fun acc e => (resizeHistory acc (max acc.length (e.1 + 1))).set e.1 (some e.2))
    h

/-- Modelled from the spec: per-chunk filtering that drops an operation iff
every entry is a duplicate measurement, updating history otherwise. -/
def filterChunkSpec : List (Option BicycleISA) → List Operation →
    List (Option BicycleISA) × List Operation
  | h, [] => (h, [])
  | h, op :: rest =>
      if op.all (isDupEntry h) then
        filterChunkSpec h rest
      else
        let r := filterChunkSpec (updateHistorySpec h op) rest
        (r.1, op :: r.2)

/-- Modelled from the spec: the chunked duplicate-measurement removal as the
spec sentence describes it. -/
def removeDupSpecGo : List (Option BicycleISA) → List (List Operation) →
    List (List Operation)
  | _, [] => []
  | h, chunk :: rest =>
      let r := filterChunkSpec h chunk
      r.2 :: removeDupSpecGo r.1 rest

/-- Modelled from the spec: entry point of the spec's description of
`remove_duplicate_measurements_chunked`. -/
def remove_dup_spec (chunks : List (List Operation)) : List (List Operation) :=
  removeDupSpecGo [] chunks

/-- Two histories that agree on every (defaulted) read; resizing with `None`
padding never changes reads, so the code and spec histories are compared up to
this equivalence. -/
def histEquiv (h1 h2 : List (Option BicycleISA)) : Prop :=
  ∀ i, h1.getD i none = h2.getD i none

/-- From bicycle_numerics `struct TimingModel`: per-instruction-class cycle
counts (u64). -/
structure TimingModel where
  idle : Nat
  shift : Nat
  inmodule : Nat
  intermodule : Nat
  t_inj : Nat
deriving DecidableEq, Repr

/-- From bicycle_numerics `struct ErrorModel`: per-instruction-class error
rates.  `ErrorPrecision` is the U32F96 fixed-point type; its values are
modelled exactly as natural numbers of 2⁻⁹⁶ units. -/
structure ErrorModel where
  idle : Nat
  shift : Nat
  inmodule : Nat
  intermodule : Nat
  t_inj : Nat
deriving DecidableEq, Repr

/-- From bicycle_numerics `struct Model`. -/
structure Model where
  timing : TimingModel
  error : ErrorModel
deriving DecidableEq, Repr

/-- From `TimingModel::timing`: cycles per instruction; the `unreachable!`
arms are modelled by `none`. -/
def TimingModel.timing (m : TimingModel) : BicycleISA → Option Nat
  | .TGate _ => some m.t_inj
  | .Automorphism _ => some (2 * m.shift)
  | .Measure _ => some m.inmodule
  | .JointMeasure _ => some m.intermodule
  | _ => none

/-- From `ErrorModel::instruction_error`; the `unreachable!` arms are `none`. -/
def ErrorModel.instruction_error (m : ErrorModel) : BicycleISA → Option Nat
  | .TGate _ => some m.t_inj
  | .Measure _ => some m.inmodule
  | .JointMeasure _ => some m.intermodule
  | .Automorphism _ => some (2 * m.shift)
  | _ => none

/-- From `u64::div_ceil` as used by `ErrorModel::idling_error`; exact for a
positive divisor (Rust panics on a zero divisor). -/
def ceil_div (a b : Nat) : Nat := (a + b - 1) / b

/-- From `ErrorModel::idling_error`: idle cycles of the slack time, and the
idling error they contribute. -/
def ErrorModel.idling_error (m : ErrorModel) (time idle_len : Nat) : Nat × Nat :=
  let idle_cycles := ceil_div time idle_len
  (idle_cycles, idle_cycles * m.idle)

/-- From `Model::idling_error`: delegate with the timing model's idle period. -/
def Model.idling_error (m : Model) (time : Nat) : Nat × Nat :=
  m.error.idling_error time m.timing.idle

/-- Depth increment of one instruction in `run_numerics`: measurements and
joint measurements deepen the block by one, everything else keeps the depth. -/
def depthInc : BicycleISA → Nat
  | .Measure _ => 1
  | .JointMeasure _ => 1
  | _ => 0

/-- The mutable per-block state of `run_numerics` (`depths`, `times`) together
with the running idle counter and total error. -/
structure NumState where
  depths : List Nat
  times : List Nat
  idles : Nat
  total_error : Nat
deriving DecidableEq, Repr

/-- The max-depth/max-time scan over the blocks of one operation in
`run_numerics` (array indexing is modelled by `Option`). -/
def maxDepthTime (depths times : List Nat) (op : Operation) : Option (Nat × Nat) :=
  op.foldlM
    (fun mm e => do
      let d ← depths[e.1]?
      let t ← times[e.1]?
      pure (max mm.1 d, max mm.2 t))
    (0, 0)

/-- The per-entry loop of `run_numerics`: set the block's depth, accumulate
idling cycles and idling error for the block's slack, and advance the block's
time by the instruction's duration. -/
def numEntryFold (m : Model) (maxd maxt : Nat) :
    NumState → Operation → Option NumState
  | s, [] => some s
  | s, (b, instr) :: rest => do
      let _ ← s.depths[b]?
      let t ← s.times[b]?
      let ie := m.idling_error (maxt - t)
      let tm ← m.timing.timing instr
      numEntryFold m maxd maxt
        ⟨s.depths.set b (maxd + depthInc instr), s.times.set b (maxt + tm),
          s.idles + ie.1, s.total_error + ie.2⟩ rest

/-- From the body of `run_numerics`'s `for op in ops` loop: compute the maxima
over the operation's blocks, run the per-entry updates, then add the first
entry's instruction error once. -/
def processOp (m : Model) (s : NumState) (op : Operation) : Option NumState := do
  let mm ← maxDepthTime s.depths s.times op
  let s2 ← numEntryFold m mm.1 mm.2 s op
  let e0 ← op.head?
  let ierr ← m.error.instruction_error e0.2
  some { s2 with total_error := s2.total_error + ierr }

/-- From bicycle_cliffords `struct MeasurementTableEntry`: measure
`measurement` conjugated by the zero-pivot rotation `conjugated_with`. -/
structure MeasurementTableEntry where
  measurement : PauliString
  conjugated_with : Option PauliString
  cost : Nat
deriving DecidableEq, Repr

/-- From `MeasurementTableEntry::implements`: the PauliString this entry
measures. -/
def MeasurementTableEntry.implements (e : MeasurementTableEntry) : PauliString :=
  match e.conjugated_with with
  | some conj => conjugate_with e.measurement (zero_pivot conj)
  | none => e.measurement

/-- From gross_code_cliffords `struct NativeMeasurement`. -/
structure NativeMeasurement where
  logical : TwoBases
  automorphism : AutomorphismData
deriving DecidableEq, Repr

/-- From `NativeMeasurement::implementation`: automorphism, pivot measurement,
inverse automorphism. -/
def NativeMeasurement.implementation (n : NativeMeasurement) : List BicycleISA :=
  [.Automorphism n.automorphism, .Measure n.logical,
    .Automorphism n.automorphism.inv]

/-- From `struct NativeMeasurementImpl`: a native measurement together with
the PauliString it measures. -/
structure NativeMeasurementImpl where
  native : NativeMeasurement
  measures : PauliString
deriving DecidableEq, Repr

/-- From `NativeMeasurementImpl::implementation`. -/
def NativeMeasurementImpl.implementation (n : NativeMeasurementImpl) :
    List BicycleISA :=
  n.native.implementation

/-- From `struct MeasurementImpl`: the result of a table lookup. -/
structure MeasurementImpl where
  base : NativeMeasurementImpl
  rotations : List NativeMeasurementImpl
  measures : PauliString
deriving DecidableEq, Repr

/-- From `struct CompleteMeasurementTable`: the dense 4¹²-entry array is
modelled as a total function on indices (every slot of a completed table is
populated), and the native reverse map as a partial function. -/
structure CompleteMeasurementTable where
  measurements : Nat → MeasurementTableEntry
  native_measurements : Nat → Option NativeMeasurement

/-- From `CompleteMeasurementTable::get` with
`MeasurementTableBuilder::index`: a PauliString indexes itself; out-of-range
reads (which make the Rust callers panic) give `none`. -/
def CompleteMeasurementTable.get (T : CompleteMeasurementTable)
    (p : PauliString) : Option MeasurementTableEntry :=
  if p < 4 ^ 12 then some (T.measurements p) else none

/-- The `while let Some(conjugate) = implementation.conjugated_with` walk of
`CompleteMeasurementTable::implementation`, with explicit fuel standing in
for the loop's termination (the builder's strictly decreasing costs bound the
chain length by the entry's cost). -/
def walkChain (T : CompleteMeasurementTable) :
    Nat → MeasurementTableEntry →
      Option (List PauliString × MeasurementTableEntry)
  | fuel, e =>
      match e.conjugated_with with
      | none => some ([], e)
      | some conj =>
          match fuel with
          | 0 => none
          | fuel' + 1 =>
              match T.get e.measurement with
              | none => none
              | some e2 =>
                  match walkChain T fuel' e2 with
                  | none => none
                  | some r => some (conj :: r.1, r.2)

/-- From `CompleteMeasurementTable::implementation`: walk the
`conjugated_with` chain back to a native entry, resolve the native
measurements, and list the rotations outermost first (`.rev()`). -/
def CompleteMeasurementTable.implementation (T : CompleteMeasurementTable)
    (fuel : Nat) (p : PauliString) : Option MeasurementImpl :=
  if p = 0 then none
  else
    match T.get p with
    | none => none
    | some e =>
        match walkChain T fuel e with
        | none => none
        | some r =>
            match T.native_measurements r.2.measurement with
            | none => none
            | some base_native =>
                match r.1.mapM (fun c =>
                    (T.native_measurements c).map
                      (fun nm => NativeMeasurementImpl.mk nm c)) with
                | none => none
                | some native_rots =>
                    some ⟨⟨base_native, r.2.measurement⟩, native_rots.reverse, p⟩

/-- From `Iterator::min_by_key` on `rotations().len()`: the first minimum
wins (Rust's `min` keeps the earliest of equal elements). -/
def minByRotsLen : List MeasurementImpl → Option MeasurementImpl
  | [] => none
  | x :: xs =>
      match minByRotsLen xs with
      | none => some x
      | some y => some (if y.rotations.length < x.rotations.length then y else x)

/-- From `CompleteMeasurementTable::min_data`: try the three non-identity
pivots `X₁, Z₁, Y₁`, look each implementation up, and keep the one with the
fewest rotations. -/
def CompleteMeasurementTable.min_data (T : CompleteMeasurementTable)
    (fuel : Nat) (p : PauliString) : Option MeasurementImpl :=
  if 4 ^ 12 < p then none
  else if pivot_bits p ≠ 0 then none
  else
    match [X1, Z1, Y1].mapM (fun piv => T.implementation fuel (mulP p piv)) with
    | none => none
    | some impls => minByRotsLen impls

/-- Invariants of a completed measurement table, established by the builder:
every entry is stored at the index of the string it implements
(`MeasurementTableBuilder::insert` keys by `implements()`); every chained
entry points to a strictly cheaper predecessor (BFS inserts cost
`prev + 2·rot ≥ prev + 2` and replaces only on strict improvement); chain
ends at nonzero indices are native (the seeding inserts exactly the native
strings with `conjugated_with = None`, plus the identity at index 0, which no
nonzero chain reaches); and every `conjugated_with` value is a native string
(base rotations are drawn from the native map's keys). -/
def TableWF (T : CompleteMeasurementTable) : Prop :=
  (∀ i < 4 ^ 12, (T.measurements i).implements = i) ∧
  (∀ i < 4 ^ 12, ∀ c, (T.measurements i).conjugated_with = some c →
    (T.measurements i).measurement < 4 ^ 12 ∧
      (T.measurements ((T.measurements i).measurement)).cost <
        (T.measurements i).cost) ∧
  (∀ i, 0 < i → i < 4 ^ 12 → (T.measurements i).conjugated_with = none →
    (T.native_measurements i).isSome) ∧
  (∀ i < 4 ^ 12, ∀ c, (T.measurements i).conjugated_with = some c →
    (T.native_measurements c).isSome)

/-- A degenerate but well-formed table used to instantiate the table theorems
on concrete inputs: every string is its own native base measurement. -/
def trivialTable : CompleteMeasurementTable :=
  ⟨fun i => ⟨i, none, if i = 0 then 0 else 1⟩,
    fun _ => some ⟨⟨.X, .I⟩, ⟨0, 0⟩⟩⟩

/-- From pbc_gross small_angle `enum SingleRotation`: a π/8 rotation in the Z
or X basis, possibly daggered. -/
inductive SingleRotation where
  | Z : Bool → SingleRotation
  | X : Bool → SingleRotation
deriving DecidableEq, Repr

/-- A Rust `(a..b).step_by(2)` range. -/
def rangeStep2 (a b : Nat) : List Nat :=
  List.range' a ((b - a + 1) / 2) 2

/-- From the legacy src/pbc_gross `ghz_meas`: ZZ joint measurements on
adjacent blocks, even edges first, then odd edges; `blocks = 0` violates the
assertion. -/
def ghz_meas (start blocks : Nat) : Option (List Operation) :=
  if blocks = 0 then none
  else
    some ((rangeStep2 start (start + blocks - 1) ++
        rangeStep2 (start + 1) (start + blocks - 1)).map
      (fun r => [(r, BicycleISA.JointMeasure ⟨.Z, .I⟩),
        (r + 1, BicycleISA.JointMeasure ⟨.Z, .I⟩)]))

/-- From the legacy `rotation_instructions`: a native rotation expands into
five steps — a preparation measurement in a basis anticommuting with the
pivot Pauli, the three-step native implementation, and the closing
measurement in the other anticommuting basis. -/
def rotation_instructions (nm : NativeMeasurementImpl) :
    Option (List BicycleISA) :=
  match (get_pauli nm.measures 0).anticommuting with
  | none => none
  | some pq =>
      match TwoBases.new pq.1 .I, TwoBases.new pq.2 .I with
      | some t0, some t1 =>
          some ([BicycleISA.Measure t0] ++ nm.implementation ++
            [BicycleISA.Measure t1])
      | _, _ => none

/-- From the legacy `extend_basis`: pad with identities to a multiple of 11. -/
def extend_basis (b : List Pauli) : List Pauli :=
  if b.length % 11 = 0 then b else extend_basis (b ++ [.I])
termination_by (11 - b.length % 11) % 11
decreasing_by
  simp only [List.length_append, List.length_cons, List.length_nil]
  omega

/-- From the legacy `select_basis_change` (Rust match arm for arm). -/
def select_basis_change (pe pp : Pauli) : Option BasisChanger :=
  match pe, pp with
  | .Z, .Z => some BasisChanger.default
  | .X, .X => some BasisChanger.default
  | .Y, .Y => some BasisChanger.default
  | .Y, .X => BasisChanger.new .Y .X .Z
  | .Y, .Z => BasisChanger.new .Y .Z .X
  | .X, .Z => BasisChanger.new .Z .Y .X
  | .X, .Y => BasisChanger.new .Y .Z .X
  | .Z, .Y => none
  | .Z, .X => BasisChanger.new .Z .Y .X
  | _, .I => none
  | .I, _ => none

/-- From the legacy `BlockBases::change_basis`: apply each block's changer
(using the legacy `change_isa`); out-of-range block indices panic. -/
def change_basis (bb : List BasisChanger) (op : Operation) : Option Operation :=
  op.mapM (fun e =>
    match bb[e.1]? with
    | none => none
    | some c => (c.change_isa_legacy e.2).map (fun isa => (e.1, isa)))

/-- Rust `chunks_exact(11)`: full 11-element chunks, remainder dropped. -/
def chunks11 (l : List Pauli) : List (List Pauli) :=
  if l.length < 11 then [] else l.take 11 :: chunks11 (l.drop 11)
termination_by l.length
decreasing_by
  simp only [List.length_drop]
  omega

/-- The X-component bit of a Pauli in the packed encoding. -/
def pauliXbit : Pauli → Nat
  | .X => 1
  | .Y => 1
  | _ => 0

/-- The Z-component bit of a Pauli in the packed encoding. -/
def pauliZbit : Pauli → Nat
  | .Z => 1
  | .Y => 1
  | _ => 0

/-- From `impl From<&[Pauli; 12]> for PauliString`: little-endian packing of
the X bits in the low half and the Z bits shifted by 12. -/
def encodePaulis (ps : List Pauli) : Nat :=
  ps.foldr (fun p acc => 2 * acc + pauliXbit p) 0 +
    2 ^ 12 * ps.foldr (fun p acc => 2 * acc + pauliZbit p) 0

/-- From `TryFrom<&[Pauli]> for PauliString`: exactly 12 Paulis required. -/
def pauliStringOf (ps : List Pauli) : Option PauliString :=
  if ps.length = 12 then some (encodePaulis ps) else none

/-- The per-block body of the `block_instrs` closure shared by the legacy
`compile_measurement` and `compile_rotation`: trivial blocks get no
implementation and the identity changer; otherwise prepend the identity
pivot, look up `min_data`, and select the basis change towards `pe`. -/
def blockEntry (T : CompleteMeasurementTable) (fuel : Nat) (pe : Pauli)
    (paulis : List Pauli) : Option (Option MeasurementImpl × BasisChanger) :=
  if paulis.all (fun p => p == .I) then some (none, BasisChanger.default)
  else
    match pauliStringOf (.I :: paulis) with
    | none => none
    | some p =>
        match T.min_data fuel p with
        | none => none
        | some mi =>
            match select_basis_change pe (get_pauli mi.measures 0) with
            | none => none
            | some ch => some (some mi, ch)

/-- The `enumerate().filter_map(...)` rotation-emission loops of the legacy
compile functions, with an explicit running block index. -/
def preRotations : Nat → List (Option MeasurementImpl) →
    Option (List Operation)
  | _, [] => some []
  | i, none :: rest => preRotations (i + 1) rest
  | i, some mi :: rest =>
      match mi.rotations.mapM (fun nm =>
          (rotation_instructions nm).map
            (fun isas => isas.map (fun isa => ([(i, isa)] : Operation)))) with
      | none => none
      | some instrs =>
          match preRotations (i + 1) rest with
          | none => none
          | some tail => some (instrs.flatten ++ tail)

/-- The base-measurement emission loop of the legacy compile functions. -/
def nativeMeasOps : Nat → List (Option MeasurementImpl) → List Operation
  | _, [] => []
  | i, none :: rest => nativeMeasOps (i + 1) rest
  | i, some mi :: rest =>
      mi.base.implementation.map (fun isa => ([(i, isa)] : Operation)) ++
        nativeMeasOps (i + 1) rest

/-- The GHZ-uncompute emission loop: trivial blocks measure X on the pivot,
non-trivial blocks measure Y. -/
def uncomputeOps : Nat → List (Option MeasurementImpl) → List Operation
  | _, [] => []
  | i, o :: rest =>
      [(i, BicycleISA.Measure (match o with
        | none => ⟨.X, .I⟩
        | some _ => ⟨.Y, .I⟩))] :: uncomputeOps (i + 1) rest

/-- Rust `Iterator::position` on `!rot.is_none()`. -/
def positionSome : Nat → List (Option MeasurementImpl) → Option Nat
  | _, [] => none
  | i, none :: rest => positionSome (i + 1) rest
  | i, some _ :: _rest => some i

/-- Rust `Iterator::rposition` on `!rot.is_none()`. -/
def rpositionSome (l : List (Option MeasurementImpl)) : Option Nat :=
  match positionSome 0 l.reverse with
  | none => none
  | some j => some (l.length - 1 - j)

/-- The TGate built from one synthesized small-angle rotation in
`compile_rotation`, on the magic block `n - 1`. -/
def tgateOf (n : Nat) : SingleRotation → Option Operation
  | .Z dagger => (TGateData.new .Z false dagger).map
      (fun d => ([(n - 1, BicycleISA.TGate d)] : Operation))
  | .X dagger => (TGateData.new .X false dagger).map
      (fun d => ([(n - 1, BicycleISA.TGate d)] : Operation))

/-- The small-angle injection loop of `compile_rotation`: one TGate on the
magic block `n - 1` per synthesized rotation. -/
def tgateOps (n : Nat) (rots : List SingleRotation) : Option (List Operation) :=
  rots.mapM (tgateOf n)

/-- From the legacy src/pbc_gross `compile_measurement`: pre-rotations,
pivot preparation, base measurements, GHZ weaving over the tightest interval
of non-trivial blocks, uncompute, and post-rotations.  The `unwrap` on
`position` is modelled by `none` when every block is trivial. -/
def compile_measurement (n : Nat) (T : CompleteMeasurementTable) (fuel : Nat)
    (basis : List Pauli) : Option (List Operation) :=
  match (chunks11 (extend_basis basis)).mapM (blockEntry T fuel .Y) with
  | none => none
  | some block_instrs =>
      let meas_impls := block_instrs.map Prod.fst
      let basis_changes := block_instrs.map Prod.snd
      if n < meas_impls.length then none
      else
        match preRotations 0 meas_impls with
        | none => none
        | some pre =>
            match (List.range n).mapM (fun bi =>
                change_basis basis_changes
                  [(bi, BicycleISA.Measure ⟨.X, .I⟩)]) with
            | none => none
            | some prep =>
                match positionSome 0 meas_impls with
                | none => none
                | some first =>
                    match rpositionSome meas_impls with
                    | none => none
                    | some last =>
                        match ghz_meas first (last - first + 1) with
                        | none => none
                        | some ghz =>
                            match (ghz ++ uncomputeOps 0 meas_impls).mapM
                                (change_basis basis_changes) with
                            | none => none
                            | some middle =>
                                match preRotations 0 meas_impls with
                                | none => none
                                | some post =>
                                    some (pre ++ prep ++
                                      nativeMeasOps 0 meas_impls ++
                                      middle ++ post)

/-- The `chunks_exact(11).enumerate()` loop of `compile_rotation`: blocks
before the magic block change basis towards Y, the magic block towards X. -/
def blockInstrsRot (T : CompleteMeasurementTable) (fuel n : Nat) :
    Nat → List (List Pauli) →
      Option (List (Option MeasurementImpl × BasisChanger))
  | _, [] => some []
  | i, chunk :: rest =>
      match blockEntry T fuel (if i < n - 1 then .Y else .X) chunk with
      | none => none
      | some v => (blockInstrsRot T fuel n (i + 1) rest).map (v :: ·)

/-- From the legacy src/pbc_gross `compile_rotation`; the synthesized
small-angle rotation list (produced by the external synthesizer, out of
scope) is a parameter.  When every block is trivial the GHZ start defaults to
the magic block `n - 1` (`unwrap_or(n - 1)`). -/
def compile_rotation (n : Nat) (T : CompleteMeasurementTable) (fuel : Nat)
    (rots : List SingleRotation) (basis : List Pauli) :
    Option (List Operation) :=
  if n = 0 then none
  else
    match blockInstrsRot T fuel n 0 (chunks11 (extend_basis basis)) with
    | none => none
    | some block_instrs =>
        let meas_impls := block_instrs.map Prod.fst
        let basis_changes := block_instrs.map Prod.snd
        if n < meas_impls.length then none
        else
          match preRotations 0 meas_impls with
          | none => none
          | some pre =>
              match ((List.range (n - 1)).map (fun bi =>
                    ([(bi, BicycleISA.Measure ⟨.X, .I⟩)] : Operation)) ++
                  [[(n - 1, BicycleISA.Measure ⟨.Y, .I⟩)]]).mapM
                  (change_basis basis_changes) with
              | none => none
              | some prep =>
                  match ghz_meas ((positionSome 0 meas_impls).getD (n - 1))
                      (n - (positionSome 0 meas_impls).getD (n - 1)) with
                  | none => none
                  | some ghz =>
                      match tgateOps n rots with
                      | none => none
                      | some tgates =>
                          match (ghz ++ tgates ++
                              uncomputeOps 0 (meas_impls.take (n - 1)) ++
                              [[(n - 1, BicycleISA.Measure ⟨.Z, .I⟩)]]).mapM
                              (change_basis basis_changes) with
                          | none => none
                          | some middle =>
                              match preRotations 0 meas_impls with
                              | none => none
                              | some post =>
                                  some (pre ++ prep ++
                                    nativeMeasOps 0 meas_impls ++
                                    middle ++ post)

/-!
Helper lemmas about bits and parities.
-/

theorem countOnes_zero : countOnes 0 = 0 := by
  unfold countOnes
  simp

theorem countOnes_pos (n : Nat) (h : n ≠ 0) :
    countOnes n = n % 2 + countOnes (n / 2) := by
  conv_lhs => unfold countOnes
  simp [h]

theorem countOnes_eq_sum (k : Nat) :
    ∀ n : Nat, n < 2 ^ k → countOnes n = ∑ i ∈ Finset.range k, (n.testBit i).toNat := by
  induction k with
  | zero =>
    intro n hn
    interval_cases n
    simp [countOnes_zero]
  | succ k ih =>
    intro n hn
    by_cases h0 : n = 0
    · subst h0
      simp [countOnes_zero, Nat.testBit]
    · rw [countOnes_pos n h0]
      have hdiv : n / 2 < 2 ^ k := by
        rw [Nat.pow_succ] at hn
        omega
      rw [ih (n / 2) hdiv, Finset.sum_range_succ']
      have hbit : ∀ i : Nat, ((n / 2).testBit i).toNat = (n.testBit (i + 1)).toNat := by
        intro i
        rw [Nat.testBit_div_two]
      have hzero : (n.testBit 0).toNat = n % 2 := by
        rw [Nat.testBit_zero]
        rcases Nat.mod_two_eq_zero_or_one n with h | h <;> simp [h]
      simp only [hbit, hzero]
      omega

theorem bit2_eq_toNat (n i : Nat) : bit2 n i = ((n.testBit i).toNat : ZMod 2) := by
  unfold bit2
  cases n.testBit i <;> simp

theorem countOnes_cast_eq_sum (k n : Nat) (h : n < 2 ^ k) :
    ((countOnes n : Nat) : ZMod 2) = ∑ i ∈ Finset.range k, bit2 n i := by
  rw [countOnes_eq_sum k n h]
  push_cast
  exact Finset.sum_congr rfl fun i _ => (bit2_eq_toNat n i).symm

theorem bit2_xor (x y i : Nat) : bit2 (x ^^^ y) i = bit2 x i + bit2 y i := by
  have h11 : (1 : ZMod 2) + 1 = 0 := by decide
  unfold bit2
  rw [Nat.testBit_xor]
  cases hx : x.testBit i <;> cases hy : y.testBit i <;> simp [h11]

theorem bit2_and (x y i : Nat) : bit2 (x &&& y) i = bit2 x i * bit2 y i := by
  unfold bit2
  rw [Nat.testBit_land]
  cases hx : x.testBit i <;> cases hy : y.testBit i <;> simp

theorem testBit_high_false (x i : Nat) (hx : x < 2 ^ 24) (hi : 24 ≤ i) :
    x.testBit i = false := by
  apply Nat.testBit_lt_two_pow
  exact lt_of_lt_of_le hx (Nat.pow_le_pow_right (by omega) hi)

/-- The low 12 bits extracted by the xor-shift trick in `commutes_with`. -/
theorem xor_shift_low (a : Nat) : a ^^^ ((a >>> 12) <<< 12) = a % 2 ^ 12 := by
  apply Nat.eq_of_testBit_eq
  intro i
  rw [Nat.testBit_xor, Nat.testBit_shiftLeft, Nat.testBit_shiftRight,
    Nat.testBit_mod_two_pow]
  by_cases h : i < 12
  · have : ¬ (i ≥ 12) := by omega
    simp [this, h]
  · have hge : i ≥ 12 := by omega
    have : 12 + (i - 12) = i := by omega
    simp [hge, h, this]

/-- Bits of the symplectic transpose `(a_x <<< 12) ||| a_z` built by
`commutes_with`, in the low half. -/
theorem transpose_testBit_low (a i : Nat) (hi : i < 12) :
    (((a % 2 ^ 12) <<< 12) ||| (a >>> 12)).testBit i = a.testBit (i + 12) := by
  rw [Nat.testBit_lor, Nat.testBit_shiftLeft, Nat.testBit_shiftRight]
  have : ¬ (i ≥ 12) := by omega
  simp [this, Nat.add_comm]

/-- Bits of the symplectic transpose in the high half, for 24-bit strings. -/
theorem transpose_testBit_high (a i : Nat) (ha : a < 2 ^ 24) (hi : i < 12) :
    (((a % 2 ^ 12) <<< 12) ||| (a >>> 12)).testBit (12 + i) = a.testBit i := by
  rw [Nat.testBit_lor, Nat.testBit_shiftLeft, Nat.testBit_shiftRight,
    Nat.testBit_mod_two_pow]
  have h1 : 12 + i ≥ 12 := by omega
  have h2 : 12 + i - 12 = i := by omega
  have h3 : a.testBit (12 + (12 + i)) = false :=
    testBit_high_false a _ ha (by omega)
  simp [h1, h2, h3, hi]

/-- The transpose value is bounded by `2 ^ 24` for 24-bit strings. -/
theorem transpose_lt (a : Nat) (ha : a < 2 ^ 24) :
    ((a % 2 ^ 12) <<< 12) ||| (a >>> 12) < 2 ^ 24 := by
  have hx : (a % 2 ^ 12) <<< 12 < 2 ^ 24 := by
    have hm : a % 2 ^ 12 < 2 ^ 12 := Nat.mod_lt a (by norm_num)
    rw [Nat.shiftLeft_eq]
    nlinarith [hm]
  have hz : a >>> 12 < 2 ^ 24 := by
    rw [Nat.shiftRight_eq_div_pow]
    omega
  exact Nat.or_lt_two_pow hx hz

/-- `commutes_with` decides vanishing of the symplectic form. -/
theorem commutes_with_iff (a b : Nat) (ha : a < 2 ^ 24) (hb : b < 2 ^ 24) :
    commutes_with a b = true ↔ sform a b = 0 := by
  unfold commutes_with
  simp only [xor_shift_low]
  set T := ((a % 2 ^ 12) <<< 12) ||| (a >>> 12) with hT
  have hTlt : T < 2 ^ 24 := transpose_lt a ha
  have hAndLt : T &&& b < 2 ^ 24 := Nat.and_lt_two_pow T hb
  have hcast : ((countOnes (T &&& b) : Nat) : ZMod 2) = sform a b := by
    rw [countOnes_cast_eq_sum 24 _ hAndLt]
    have h24 : (24 : Nat) = 12 + 12 := by norm_num
    rw [h24, Finset.sum_range_add]
    unfold sform
    rw [Finset.sum_add_distrib, add_comm]
    congr 1
    · apply Finset.sum_congr rfl
      intro i hi
      have hi12 : i < 12 := Finset.mem_range.mp hi
      have hbit : T.testBit (12 + i) = a.testBit i := by
        rw [hT]
        exact transpose_testBit_high a i ha hi12
      rw [bit2_and]
      unfold bit2
      rw [hbit, Nat.add_comm 12 i]
    · apply Finset.sum_congr rfl
      intro i hi
      have hi12 : i < 12 := Finset.mem_range.mp hi
      have hbit : T.testBit i = a.testBit (i + 12) := by
        rw [hT]
        exact transpose_testBit_low a i hi12
      rw [bit2_and]
      unfold bit2
      rw [hbit]
  constructor
  · intro h
    rw [← hcast]
    have : countOnes (T &&& b) % 2 = 0 := by
      simpa using h
    rw [ZMod.natCast_zmod_eq_zero_iff_dvd]
    omega
  · intro h
    rw [← hcast] at h
    rw [ZMod.natCast_zmod_eq_zero_iff_dvd] at h
    simp
    omega

theorem sform_comm (a b : Nat) : sform a b = sform b a := by
  unfold sform
  apply Finset.sum_congr rfl
  intro i _
  ring

theorem sform_self (r : Nat) : sform r r = 0 := by
  unfold sform
  have h : ∀ i ∈ Finset.range 12,
      bit2 r i * bit2 r (i + 12) + bit2 r (i + 12) * bit2 r i = 0 := by
    intro i _
    rw [mul_comm (bit2 r (i + 12)) (bit2 r i)]
    exact CharTwo.add_self_eq_zero _
  rw [Finset.sum_congr rfl h]
  simp

theorem sform_xor_left (a r b : Nat) :
    sform (a ^^^ r) b = sform a b + sform r b := by
  unfold sform
  rw [← Finset.sum_add_distrib]
  apply Finset.sum_congr rfl
  intro i _
  rw [bit2_xor, bit2_xor]
  ring

theorem sform_xor_right (a b r : Nat) :
    sform a (b ^^^ r) = sform a b + sform a r := by
  unfold sform
  rw [← Finset.sum_add_distrib]
  apply Finset.sum_congr rfl
  intro i _
  rw [bit2_xor, bit2_xor]
  ring

/-- C4: For all 12-qubit PauliStrings `a`, `b`, `r`,
`commutes_with(conjugate_with(a, r), conjugate_with(b, r)) = commutes_with(a, b)`,
covering all four commute/anti-commute combinations of `(a, r)` and `(b, r)`. -/
theorem conjugation_preserves_commutation (a b r : PauliString)
    (ha : a < 2 ^ 24) (hb : b < 2 ^ 24) (hr : r < 2 ^ 24) :
    commutes_with (conjugate_with a r) (conjugate_with b r) = commutes_with a b := by
  have hone : ∀ x : ZMod 2, x ≠ 0 → x = 1 := by decide
  have h11 : (1 : ZMod 2) + 1 = 0 := by decide
  have hxa : a ^^^ r < 2 ^ 24 := Nat.xor_lt_two_pow ha hr
  have hxb : b ^^^ r < 2 ^ 24 := Nat.xor_lt_two_pow hb hr
  rw [Bool.eq_iff_iff]
  unfold conjugate_with mulP
  by_cases har : commutes_with a r = true <;> by_cases hbr : commutes_with b r = true
  · simp only [har, hbr, if_pos]
  · simp only [har, hbr, if_pos, if_neg, Bool.false_eq_true, not_false_iff]
    rw [commutes_with_iff a (b ^^^ r) ha hxb, commutes_with_iff a b ha hb,
      sform_xor_right]
    have h0 : sform a r = 0 := (commutes_with_iff a r ha hr).mp har
    rw [h0, add_zero]
  · simp only [har, hbr, if_pos, if_neg, Bool.false_eq_true, not_false_iff]
    rw [commutes_with_iff (a ^^^ r) b hxa hb, commutes_with_iff a b ha hb,
      sform_xor_left]
    have h0 : sform b r = 0 := (commutes_with_iff b r hb hr).mp hbr
    rw [sform_comm r b, h0, add_zero]
  · simp only [har, hbr, if_neg, Bool.false_eq_true, not_false_iff]
    have h1 : sform a r = 1 :=
      hone _ (fun h => har ((commutes_with_iff a r ha hr).mpr h))
    have h2 : sform b r = 1 :=
      hone _ (fun h => hbr ((commutes_with_iff b r hb hr).mpr h))
    rw [commutes_with_iff (a ^^^ r) (b ^^^ r) hxa hxb, commutes_with_iff a b ha hb]
    have heq : sform (a ^^^ r) (b ^^^ r) = sform a b := by
      rw [sform_xor_left, sform_xor_right a b r, sform_xor_right r b r,
        sform_self, h1, sform_comm r b, h2, add_zero, add_assoc, h11, add_zero]
    rw [heq]

/-- Witness for C4 at the concrete triple `a = X1`, `b = X2`, `r = Y1`. -/
theorem conjugation_preserves_commutation_witness :
    (1 : Nat) < 2 ^ 24 ∧ (2 : Nat) < 2 ^ 24 ∧ (4097 : Nat) < 2 ^ 24 ∧
      commutes_with (conjugate_with 1 4097) (conjugate_with 2 4097) =
        commutes_with 1 2 :=
  ⟨by norm_num, by norm_num, by norm_num,
    conjugation_preserves_commutation 1 2 4097 (by norm_num) (by norm_num)
      (by norm_num)⟩

/-- A valid pair of bases survives `TwoBases::new`. -/
theorem TwoBases.new_eq_some (q p7 : Pauli) (h : ¬(q = .I ∧ p7 = .I)) :
    TwoBases.new q p7 = some ⟨q, p7⟩ := by
  cases q <;> cases p7 <;> simp_all [TwoBases.new]

/-- C3 (code_bug evidence): in the crates layout `change_isa` keeps a local
`Measure` a `Measure` and only permutes the `p1` coordinate, and leaves every
`Automorphism` unchanged; the legacy src layout instead rewrites `Measure`
into `JointMeasure` (contradicting the crates unit tests and the spec). -/
theorem change_isa_measure_divergence :
    (∀ (c : BasisChanger) (a : AutomorphismData),
      c.change_isa (.Automorphism a) = some (.Automorphism a) ∧
        c.change_isa_legacy (.Automorphism a) = some (.Automorphism a)) ∧
    (∀ (c : BasisChanger) (p1 p7 : Pauli),
      ¬(c.change_pauli p1 = .I ∧ p7 = .I) →
        c.change_isa (.Measure ⟨p1, p7⟩) =
            some (.Measure ⟨c.change_pauli p1, p7⟩) ∧
          c.change_isa_legacy (.Measure ⟨p1, p7⟩) =
            some (.JointMeasure ⟨c.change_pauli p1, p7⟩)) := by
  constructor
  · intro c a
    exact ⟨rfl, rfl⟩
  · intro c p1 p7 h
    constructor
    · simp [BasisChanger.change_isa, BasisChanger.two_bases, TwoBases.get_basis_1,
        TwoBases.get_basis_7, TwoBases.new_eq_some _ _ h]
    · simp [BasisChanger.change_isa_legacy, BasisChanger.two_bases,
        TwoBases.get_basis_1, TwoBases.get_basis_7, TwoBases.new_eq_some _ _ h]

/-- Witness for C3 at the identity changer on `Measure(TwoBases(X, I))`:
the crates layout returns the same `Measure`, the legacy layout returns a
`JointMeasure`. -/
theorem change_isa_measure_divergence_witness :
    ¬(BasisChanger.default.change_pauli .X = .I ∧ Pauli.I = .I) ∧
      BasisChanger.default.change_isa (.Measure ⟨.X, .I⟩) =
          some (.Measure ⟨BasisChanger.default.change_pauli .X, .I⟩) ∧
        BasisChanger.default.change_isa_legacy (.Measure ⟨.X, .I⟩) =
          some (.JointMeasure ⟨BasisChanger.default.change_pauli .X, .I⟩) :=
  ⟨by decide, change_isa_measure_divergence.2 BasisChanger.default .X .I (by decide)⟩

/-- C7 (counterexample): the legacy `qubits()` returns `10` for a single data
block, not `11 · 1` as the claim states for every layout. -/
theorem qubits_legacy_counterexample :
    PathArchitecture.qubits_legacy ⟨1⟩ = 10 ∧ (10 : Nat) ≠ 11 * 1 := by
  constructor
  · rfl
  · decide

/-- C7 (amended): the crates `qubits()` returns `11 · N`; the legacy layout
returns `11 · N − 1`. -/
theorem qubits_both_layouts (N : Nat) (h : 1 ≤ N) :
    PathArchitecture.qubits ⟨N⟩ = 11 * N ∧
      PathArchitecture.qubits_legacy ⟨N⟩ = 11 * N - 1 := by
  unfold PathArchitecture.qubits PathArchitecture.qubits_legacy
  simp only
  omega

/-- Witness for C7 at `N = 2`. -/
theorem qubits_both_layouts_witness :
    1 ≤ 2 ∧ (PathArchitecture.qubits ⟨2⟩ = 11 * 2 ∧
      PathArchitecture.qubits_legacy ⟨2⟩ = 11 * 2 - 1) :=
  ⟨by decide, qubits_both_layouts 2 (by decide)⟩

/-- C8: `nr_generators` on ℤ₆×ℤ₆ is 0 on the identity, 1 on `(3,3)` and on
elements with both components outside `{0, 3}`, and 2 when exactly one
component equals 3. -/
theorem nr_generators_cases :
    ∀ x < 6, ∀ y < 6,
      ((x = 0 ∧ y = 0) → (AutomorphismData.mk x y).nr_generators = 0) ∧
      ((x = 3 ∧ y = 3) → (AutomorphismData.mk x y).nr_generators = 1) ∧
      ((x ≠ 0 ∧ x ≠ 3 ∧ y ≠ 0 ∧ y ≠ 3) →
        (AutomorphismData.mk x y).nr_generators = 1) ∧
      (((x = 3 ∨ y = 3) ∧ ¬(x = 3 ∧ y = 3)) →
        (AutomorphismData.mk x y).nr_generators = 2) := by
  intro x hx y hy
  interval_cases x <;> interval_cases y <;> decide

/-- Witness for C8 at `(3, 5)`. -/
theorem nr_generators_cases_witness :
    3 < 6 ∧ 5 < 6 ∧
      ((3 = 0 ∧ 5 = 0) → (AutomorphismData.mk 3 5).nr_generators = 0) ∧
      ((3 = 3 ∧ 5 = 3) → (AutomorphismData.mk 3 5).nr_generators = 1) ∧
      ((3 ≠ 0 ∧ 3 ≠ 3 ∧ 5 ≠ 0 ∧ 5 ≠ 3) →
        (AutomorphismData.mk 3 5).nr_generators = 1) ∧
      (((3 = 3 ∨ 5 = 3) ∧ ¬(3 = 3 ∧ 5 = 3)) →
        (AutomorphismData.mk 3 5).nr_generators = 2) :=
  ⟨by decide, by decide, nr_generators_cases 3 (by decide) 5 (by decide)⟩

/-- C9 (counterexample): `validate_operation` accepts this length-3 operation
(only the first two entries are inspected), while the claim allows `true` only
for lengths 1 and 2. -/
theorem validate_operation_counterexample :
    PathArchitecture.validate_operation ⟨8⟩
        [(0, .Measure ⟨.X, .I⟩), (1, .Measure ⟨.X, .I⟩), (7, .Measure ⟨.X, .I⟩)] =
      some true ∧
    ([(0, BicycleISA.Measure ⟨.X, .I⟩), (1, .Measure ⟨.X, .I⟩),
        (7, .Measure ⟨.X, .I⟩)] : Operation).length = 3 := by
  constructor
  · rfl
  · rfl

/-- C9 (amended): `validate_operation` returns `true` for every length-1
operation, decides only adjacency of the first two entries for length ≥ 2, and
panics on the empty operation. -/
theorem validate_operation_first_two (a : PathArchitecture) :
    a.validate_operation [] = none ∧
    (∀ e : Nat × BicycleISA, a.validate_operation [e] = some true) ∧
    (∀ (e0 e1 : Nat × BicycleISA) (rest : Operation),
      a.validate_operation (e0 :: e1 :: rest) =
        some (decide (Nat.dist e0.1 e1.1 = 1))) := by
  refine ⟨rfl, fun e => rfl, fun e0 e1 rest => ?_⟩
  simp [PathArchitecture.validate_operation]

theorem resizeHistory_getD (h : List (Option BicycleISA)) (n i : Nat) :
    (resizeHistory h n).getD i none = h.getD i none := by
  unfold resizeHistory
  rw [List.getD_eq_getElem?_getD, List.getD_eq_getElem?_getD, List.getElem?_append]
  by_cases hi : i < h.length
  · simp [hi]
  · have hnone : h[i]? = none := by
      apply List.getElem?_eq_none
      omega
    rw [hnone]
    simp only [hi, if_false, List.getElem?_replicate]
    split <;> rfl

theorem resizeHistory_length (h : List (Option BicycleISA)) (n : Nat)
    (hn : h.length ≤ n) : (resizeHistory h n).length = n := by
  unfold resizeHistory
  simp
  omega

theorem histEquiv_update (h1 h2 : List (Option BicycleISA))
    (e : histEquiv h1 h2) (i : Nat) (v : Option BicycleISA) :
    histEquiv ((resizeHistory h1 (max h1.length (i + 1))).set i v)
      ((resizeHistory h2 (max h2.length (i + 1))).set i v) := by
  intro j
  have hlen1 : i < (resizeHistory h1 (max h1.length (i + 1))).length := by
    rw [resizeHistory_length _ _ (by omega)]
    omega
  have hlen2 : i < (resizeHistory h2 (max h2.length (i + 1))).length := by
    rw [resizeHistory_length _ _ (by omega)]
    omega
  by_cases hij : i = j
  · subst hij
    rw [List.getD_eq_getElem?_getD, List.getD_eq_getElem?_getD,
      List.getElem?_set_self hlen1, List.getElem?_set_self hlen2]
  · rw [List.getD_eq_getElem?_getD, List.getD_eq_getElem?_getD,
      List.getElem?_set_ne hij, List.getElem?_set_ne hij,
      ← List.getD_eq_getElem?_getD, ← List.getD_eq_getElem?_getD,
      resizeHistory_getD, resizeHistory_getD]
    exact e j

theorem dupCheck_singleton_keep (h1 h2 : List (Option BicycleISA))
    (e : histEquiv h1 h2) (i : Nat) (instr : BicycleISA) :
    (dupCheck h1 [(i, instr)]).2 = !(isDupEntry h2 (i, instr)) := by
  have hread : (resizeHistory h1 (max h1.length (i + 1))).getD i none =
      h2.getD i none := by
    rw [resizeHistory_getD]
    exact e i
  cases instr with
  | Measure b =>
      by_cases hd : h2.getD i none = some (.Measure b)
      · have h1d : (resizeHistory h1 (max h1.length (i + 1))).getD i none =
            some (BicycleISA.Measure b) := by
          rw [hread]
          exact hd
        rw [List.getD_eq_getElem?_getD] at hd
        simp only [dupCheck, isDupEntry, h1d, if_pos, beq_iff_eq, hd]
        simp [hd]
      · have h1d : ¬ ((resizeHistory h1 (max h1.length (i + 1))).getD i none =
            some (BicycleISA.Measure b)) := by
          rw [hread]
          exact hd
        rw [List.getD_eq_getElem?_getD] at hd
        simp only [dupCheck, isDupEntry, h1d, if_neg, beq_iff_eq]
        simp [dupCheck, hd]
  | Automorphism a => simp [dupCheck, isDupEntry]
  | JointMeasure b => simp [dupCheck, isDupEntry]
  | TGate t => simp [dupCheck, isDupEntry]
  | SyndromeCycle => simp [dupCheck, isDupEntry]
  | CSSInitZero => simp [dupCheck, isDupEntry]
  | CSSInitPlus => simp [dupCheck, isDupEntry]
  | DestructiveZ => simp [dupCheck, isDupEntry]
  | DestructiveX => simp [dupCheck, isDupEntry]
  | ParallelMeasure p => simp [dupCheck, isDupEntry]
  | JointBellInit => simp [dupCheck, isDupEntry]
  | JointTransversalCX => simp [dupCheck, isDupEntry]
  | InitT => simp [dupCheck, isDupEntry]

theorem dupCheck_singleton_hist (h1 h2 : List (Option BicycleISA))
    (e : histEquiv h1 h2) (i : Nat) (instr : BicycleISA) :
    histEquiv (dupCheck h1 [(i, instr)]).1
      (if isDupEntry h2 (i, instr) then h2
       else updateHistorySpec h2 [(i, instr)]) := by
  have hread : (resizeHistory h1 (max h1.length (i + 1))).getD i none =
      h2.getD i none := by
    rw [resizeHistory_getD]
    exact e i
  have hupd := histEquiv_update h1 h2 e i (some instr)
  have hspec : updateHistorySpec h2 [(i, instr)] =
      (resizeHistory h2 (max h2.length (i + 1))).set i (some instr) := rfl
  cases instr with
  | Measure b =>
      by_cases hd : h2.getD i none = some (.Measure b)
      · have h1d : (resizeHistory h1 (max h1.length (i + 1))).getD i none =
            some (BicycleISA.Measure b) := by
          rw [hread]
          exact hd
        have hdup : isDupEntry h2 (i, BicycleISA.Measure b) = true :=
          beq_iff_eq.mpr hd
        simp only [dupCheck, h1d, if_pos, hdup]
        intro j
        rw [resizeHistory_getD]
        exact e j
      · have h1d : ¬ ((resizeHistory h1 (max h1.length (i + 1))).getD i none =
            some (BicycleISA.Measure b)) := by
          rw [hread]
          exact hd
        have hdup : isDupEntry h2 (i, BicycleISA.Measure b) = false :=
          beq_eq_false_iff_ne.mpr hd
        simp only [dupCheck, h1d, if_neg, hdup, Bool.false_eq_true, not_false_iff,
          if_false, hspec]
        exact hupd
  | Automorphism a => simpa [dupCheck, isDupEntry, hspec] using hupd
  | JointMeasure b => simpa [dupCheck, isDupEntry, hspec] using hupd
  | TGate t => simpa [dupCheck, isDupEntry, hspec] using hupd
  | SyndromeCycle => simpa [dupCheck, isDupEntry, hspec] using hupd
  | CSSInitZero => simpa [dupCheck, isDupEntry, hspec] using hupd
  | CSSInitPlus => simpa [dupCheck, isDupEntry, hspec] using hupd
  | DestructiveZ => simpa [dupCheck, isDupEntry, hspec] using hupd
  | DestructiveX => simpa [dupCheck, isDupEntry, hspec] using hupd
  | ParallelMeasure p => simpa [dupCheck, isDupEntry, hspec] using hupd
  | JointBellInit => simpa [dupCheck, isDupEntry, hspec] using hupd
  | JointTransversalCX => simpa [dupCheck, isDupEntry, hspec] using hupd
  | InitT => simpa [dupCheck, isDupEntry, hspec] using hupd

theorem filterOpsChunk_spec (chunk : List Operation)
    (hop : ∀ op ∈ chunk, op.length = 1) :
    ∀ h1 h2, histEquiv h1 h2 →
      (filterOpsChunk h1 chunk).2 = (filterChunkSpec h2 chunk).2 ∧
        histEquiv (filterOpsChunk h1 chunk).1 (filterChunkSpec h2 chunk).1 := by
  induction chunk with
  | nil =>
    intro h1 h2 e
    exact ⟨rfl, e⟩
  | cons op rest ih =>
    intro h1 h2 e
    have hop1 : op.length = 1 := hop op (by simp)
    obtain ⟨entry, hentry⟩ : ∃ entry, op = [entry] := by
      cases op with
      | nil => simp at hop1
      | cons a t =>
        cases t with
        | nil => exact ⟨a, rfl⟩
        | cons b t2 => simp at hop1
    obtain ⟨i, instr⟩ := entry
    subst hentry
    have hrest : ∀ op2 ∈ rest, op2.length = 1 := fun op2 hm => hop op2 (by simp [hm])
    have hkeep := dupCheck_singleton_keep h1 h2 e i instr
    have hhist := dupCheck_singleton_hist h1 h2 e i instr
    by_cases hd : isDupEntry h2 (i, instr) = true
    · have hkeep2 : (dupCheck h1 [(i, instr)]).2 = false := by
        rw [hkeep, hd]
        rfl
      have hall : List.all [(i, instr)] (isDupEntry h2) = true := by
        simp [hd]
      rw [hd, if_pos rfl] at hhist
      have hih := ih hrest (dupCheck h1 [(i, instr)]).1 h2 hhist
      constructor
      · simp only [filterOpsChunk, filterChunkSpec, hall, if_pos, hkeep2,
          Bool.false_eq_true, if_false]
        exact hih.1
      · simp only [filterOpsChunk, filterChunkSpec, hall, if_pos]
        exact hih.2
    · have hdf : isDupEntry h2 (i, instr) = false := by
        cases hx : isDupEntry h2 (i, instr)
        · rfl
        · exact absurd hx hd
      have hkeep2 : (dupCheck h1 [(i, instr)]).2 = true := by
        rw [hkeep, hdf]
        rfl
      have hall : List.all [(i, instr)] (isDupEntry h2) = false := by
        simp [hdf]
      rw [hdf, if_neg (by simp)] at hhist
      have hih := ih hrest (dupCheck h1 [(i, instr)]).1
        (updateHistorySpec h2 [(i, instr)]) hhist
      constructor
      · simp only [filterOpsChunk, filterChunkSpec, hall, Bool.false_eq_true,
          if_false, hkeep2, if_pos]
        rw [hih.1]
      · simp only [filterOpsChunk, filterChunkSpec, hall, Bool.false_eq_true,
          if_false]
        exact hih.2

theorem removeDupGo_spec (chunks : List (List Operation))
    (hop : ∀ chunk ∈ chunks, ∀ op ∈ chunk, op.length = 1) :
    ∀ h1 h2, histEquiv h1 h2 →
      removeDupGo h1 chunks = removeDupSpecGo h2 chunks := by
  induction chunks with
  | nil => intro h1 h2 _; rfl
  | cons chunk rest ih =>
    intro h1 h2 e
    have hchunk : ∀ op ∈ chunk, op.length = 1 := hop chunk (by simp)
    have hrest : ∀ c ∈ rest, ∀ op ∈ c, op.length = 1 :=
      fun c hc => hop c (by simp [hc])
    have hs := filterOpsChunk_spec chunk hchunk h1 h2 e
    simp only [removeDupGo, removeDupSpecGo]
    rw [hs.1, ih hrest _ _ hs.2]

theorem removeDupGo_length (chunks : List (List Operation)) :
    ∀ h, (removeDupGo h chunks).length = chunks.length := by
  induction chunks with
  | nil => intro h; rfl
  | cons chunk rest ih =>
    intro h
    simp only [removeDupGo, List.length_cons, ih]

/-- C5 (amended): the chunked duplicate-measurement filter agrees with the
spec's "drop iff every entry is a duplicate measurement" description on
streams whose operations each touch a single block, and it always preserves
the chunk boundaries.  (On multi-entry operations the code instead drops as
soon as one scanned entry is a duplicate `Measure`, see the counterexample.) -/
theorem remove_dup_single_block (chunks : List (List Operation))
    (hop : ∀ chunk ∈ chunks, ∀ op ∈ chunk, op.length = 1) :
    (remove_duplicate_measurements_chunked chunks).length = chunks.length ∧
      remove_duplicate_measurements_chunked chunks = remove_dup_spec chunks := by
  constructor
  · exact removeDupGo_length chunks []
  · exact removeDupGo_spec chunks hop [] [] (fun _ => rfl)

/-- Witness for C5 on a concrete single-block stream: the second chunk's
repeated measurement is dropped by both the code and the spec description. -/
theorem remove_dup_single_block_witness :
    (∀ chunk ∈ [[[((0 : Nat), BicycleISA.Measure ⟨.X, .Z⟩)]],
        [[((0 : Nat), BicycleISA.Measure ⟨.X, .Z⟩)]]],
      ∀ op ∈ chunk, List.length op = 1) ∧
    ((remove_duplicate_measurements_chunked
        [[[((0 : Nat), BicycleISA.Measure ⟨.X, .Z⟩)]],
         [[((0 : Nat), BicycleISA.Measure ⟨.X, .Z⟩)]]]).length = 2 ∧
      remove_duplicate_measurements_chunked
          [[[((0 : Nat), BicycleISA.Measure ⟨.X, .Z⟩)]],
           [[((0 : Nat), BicycleISA.Measure ⟨.X, .Z⟩)]]] =
        remove_dup_spec
          [[[((0 : Nat), BicycleISA.Measure ⟨.X, .Z⟩)]],
           [[((0 : Nat), BicycleISA.Measure ⟨.X, .Z⟩)]]]) :=
  ⟨by decide, remove_dup_single_block _ (by decide)⟩

/-- C5 (counterexample): on a two-entry operation whose first entry repeats a
recorded measurement but whose second entry does not, the code drops the whole
operation while the spec's "every entry" rule keeps it. -/
theorem remove_dup_counterexample :
    remove_duplicate_measurements_chunked
        [[[((0 : Nat), BicycleISA.Measure ⟨.X, .Z⟩)]],
         [[((0 : Nat), BicycleISA.Measure ⟨.X, .Z⟩),
           ((1 : Nat), BicycleISA.Measure ⟨.X, .Z⟩)]]] =
      [[[((0 : Nat), BicycleISA.Measure ⟨.X, .Z⟩)]], []] ∧
    remove_dup_spec
        [[[((0 : Nat), BicycleISA.Measure ⟨.X, .Z⟩)]],
         [[((0 : Nat), BicycleISA.Measure ⟨.X, .Z⟩),
           ((1 : Nat), BicycleISA.Measure ⟨.X, .Z⟩)]]] =
      [[[((0 : Nat), BicycleISA.Measure ⟨.X, .Z⟩)]],
       [[((0 : Nat), BicycleISA.Measure ⟨.X, .Z⟩),
         ((1 : Nat), BicycleISA.Measure ⟨.X, .Z⟩)]]] := by
  constructor
  · rfl
  · rfl

theorem numEntryFold_spec (m : Model) (maxd maxt : Nat) :
    ∀ (op : Operation) (s : NumState),
      (∀ e ∈ op, e.1 < s.depths.length) →
      (∀ e ∈ op, e.1 < s.times.length) →
      op.Pairwise (fun e1 e2 => e1.1 ≠ e2.1) →
      (∀ e ∈ op, (m.timing.timing e.2).isSome) →
      ∃ s2, numEntryFold m maxd maxt s op = some s2 ∧
        s2.depths.length = s.depths.length ∧
        s2.times.length = s.times.length ∧
        (∀ j, (∀ e ∈ op, e.1 ≠ j) →
          s2.depths[j]? = s.depths[j]? ∧ s2.times[j]? = s.times[j]?) ∧
        (∀ e ∈ op,
          s2.depths[e.1]? = some (maxd + depthInc e.2) ∧
          s2.times[e.1]? = some (maxt + (m.timing.timing e.2).getD 0)) ∧
        s2.idles = s.idles +
          (op.map (fun e =>
            ceil_div (maxt - s.times.getD e.1 0) m.timing.idle)).sum ∧
        s2.total_error = s.total_error +
          (op.map (fun e =>
            ceil_div (maxt - s.times.getD e.1 0) m.timing.idle * m.error.idle)).sum := by
  intro op
  induction op with
  | nil =>
    intro s _ _ _ _
    refine ⟨s, rfl, rfl, rfl, fun j _ => ⟨rfl, rfl⟩, fun e he => absurd he (by simp), ?_, ?_⟩
    · simp
    · simp
  | cons e0 rest ih =>
    intro s hdep htime hdist hsupp
    obtain ⟨b, instr⟩ := e0
    have hb_dep : b < s.depths.length := hdep (b, instr) (by simp)
    have hb_time : b < s.times.length := htime (b, instr) (by simp)
    obtain ⟨tm, htm⟩ : ∃ tm, m.timing.timing instr = some tm := by
      have := hsupp (b, instr) (by simp)
      cases hx : m.timing.timing instr
      · rw [hx] at this
        simp at this
      · exact ⟨_, rfl⟩
    have hdget : s.depths[b]? = some s.depths[b] := List.getElem?_eq_getElem hb_dep
    have htget : s.times[b]? = some s.times[b] := List.getElem?_eq_getElem hb_time
    obtain ⟨hhead, htail⟩ := List.pairwise_cons.mp hdist
    set s1 : NumState :=
      ⟨s.depths.set b (maxd + depthInc instr), s.times.set b (maxt + tm),
        s.idles + (m.idling_error (maxt - s.times[b])).1,
        s.total_error + (m.idling_error (maxt - s.times[b])).2⟩ with hs1
    have hstep : numEntryFold m maxd maxt s ((b, instr) :: rest) =
        numEntryFold m maxd maxt s1 rest := by
      simp only [numEntryFold, hdget, htget, htm, Option.bind_eq_bind,
        Option.some_bind]
    have hdep1 : ∀ e ∈ rest, e.1 < s1.depths.length := by
      intro e he
      rw [hs1]
      simp only [List.length_set]
      exact hdep e (by simp [he])
    have htime1 : ∀ e ∈ rest, e.1 < s1.times.length := by
      intro e he
      rw [hs1]
      simp only [List.length_set]
      exact htime e (by simp [he])
    have hsupp1 : ∀ e ∈ rest, (m.timing.timing e.2).isSome :=
      fun e he => hsupp e (by simp [he])
    obtain ⟨s2, hrun, hlen_d, hlen_t, huntouched, hvalues, hidles, herr⟩ :=
      ih s1 hdep1 htime1 htail hsupp1
    have hne_b : ∀ e ∈ rest, e.1 ≠ b := fun e he => (hhead e he).symm
    have hgetD1 : ∀ e ∈ rest, s1.times.getD e.1 0 = s.times.getD e.1 0 := by
      intro e he
      rw [hs1]
      simp only [List.getD_eq_getElem?_getD]
      rw [List.getElem?_set_ne (fun hx => (hne_b e he) hx.symm)]
    refine ⟨s2, by rw [hstep]; exact hrun, ?_, ?_, ?_, ?_, ?_, ?_⟩
    · rw [hlen_d, hs1]
      simp
    · rw [hlen_t, hs1]
      simp
    · intro j hj
      have hj_rest : ∀ e ∈ rest, e.1 ≠ j := fun e he => hj e (by simp [he])
      have hbj : b ≠ j := hj (b, instr) (by simp)
      obtain ⟨hd2, ht2⟩ := huntouched j hj_rest
      constructor
      · rw [hd2, hs1]
        exact List.getElem?_set_ne hbj
      · rw [ht2, hs1]
        exact List.getElem?_set_ne hbj
    · intro e he
      rcases List.mem_cons.mp he with heq | hmem
      · subst heq
        obtain ⟨hd2, ht2⟩ := huntouched b hne_b
        constructor
        · rw [hd2, hs1]
          exact List.getElem?_set_self hb_dep
        · rw [ht2, hs1, htm]
          simp only [Option.getD_some]
          exact List.getElem?_set_self hb_time
      · exact hvalues e hmem
    · rw [hidles, hs1]
      simp only [List.map_cons, List.sum_cons]
      rw [List.map_congr_left (fun e he => by rw [hgetD1 e he])]
      have hdb : (m.idling_error (maxt - s.times[b])).1 =
          ceil_div (maxt - s.times.getD b 0) m.timing.idle := by
        rw [List.getD_eq_getElem?_getD, htget]
        rfl
      rw [hdb]
      ring
    · rw [herr, hs1]
      simp only [List.map_cons, List.sum_cons]
      rw [List.map_congr_left (fun e he => by rw [hgetD1 e he])]
      have hdb : (m.idling_error (maxt - s.times[b])).2 =
          ceil_div (maxt - s.times.getD b 0) m.timing.idle * m.error.idle := by
        rw [List.getD_eq_getElem?_getD, htget]
        rfl
      rw [hdb]
      ring

theorem maxDepthTime_foldlM_isSome (depths times : List Nat) :
    ∀ (op : Operation) (acc : Nat × Nat),
      (∀ e ∈ op, e.1 < depths.length) →
      (∀ e ∈ op, e.1 < times.length) →
      ∃ mm, op.foldlM
          (fun mm e => do
            let d ← depths[e.1]?
            let t ← times[e.1]?
            pure (max mm.1 d, max mm.2 t))
          acc = some mm := by
  intro op
  induction op with
  | nil => intro acc _ _; exact ⟨acc, rfl⟩
  | cons e0 rest ih =>
    intro acc hdep htime
    have hd : e0.1 < depths.length := hdep e0 (by simp)
    have ht : e0.1 < times.length := htime e0 (by simp)
    have hdget : depths[e0.1]? = some depths[e0.1] := List.getElem?_eq_getElem hd
    have htget : times[e0.1]? = some times[e0.1] := List.getElem?_eq_getElem ht
    obtain ⟨mm, hmm⟩ := ih (max acc.1 depths[e0.1], max acc.2 times[e0.1])
      (fun e he => hdep e (by simp [he])) (fun e he => htime e (by simp [he]))
    refine ⟨mm, ?_⟩
    simp only [List.foldlM, hdget, htget, Option.bind_eq_bind, Option.some_bind]
    exact hmm

/-- C6: for each operation processed by `run_numerics`, with `max_depth` and
`max_time` the maxima of the depths/times arrays over the operation's blocks,
each `(b, instr)` entry sets `depths[b]` to `max_depth + 1` for (joint)
measurements and to `max_depth` otherwise, accumulates
`ceil_div(max_time - times[b], timing.idle)` idle cycles and that many
`error.idle` units of error, and sets `times[b] = max_time + timing(instr)`;
the first entry's instruction error is then added once. -/
theorem run_numerics_op_update (m : Model) (s : NumState)
    (e0 : Nat × BicycleISA) (rest : Operation)
    (_hidle : 0 < m.timing.idle)
    (hdep : ∀ e ∈ e0 :: rest, e.1 < s.depths.length)
    (htime : ∀ e ∈ e0 :: rest, e.1 < s.times.length)
    (hdist : (e0 :: rest).Pairwise (fun a b => a.1 ≠ b.1))
    (hsupp : ∀ e ∈ e0 :: rest, (m.timing.timing e.2).isSome)
    (herr0 : (m.error.instruction_error e0.2).isSome) :
    ∃ md mt s2,
      maxDepthTime s.depths s.times (e0 :: rest) = some (md, mt) ∧
      processOp m s (e0 :: rest) = some s2 ∧
      (∀ e ∈ e0 :: rest,
        s2.depths[e.1]? = some (md + depthInc e.2) ∧
        s2.times[e.1]? = some (mt + (m.timing.timing e.2).getD 0)) ∧
      s2.idles = s.idles +
        ((e0 :: rest).map (fun e =>
          ceil_div (mt - s.times.getD e.1 0) m.timing.idle)).sum ∧
      s2.total_error = s.total_error +
        ((e0 :: rest).map (fun e =>
          ceil_div (mt - s.times.getD e.1 0) m.timing.idle * m.error.idle)).sum +
        (m.error.instruction_error e0.2).getD 0 := by
  obtain ⟨mm, hmm⟩ :=
    maxDepthTime_foldlM_isSome s.depths s.times (e0 :: rest) (0, 0) hdep htime
  obtain ⟨s2, hrun, _, _, _, hvalues, hidles, htotal⟩ :=
    numEntryFold_spec m mm.1 mm.2 (e0 :: rest) s hdep htime hdist hsupp
  obtain ⟨ierr, hierr⟩ : ∃ i, m.error.instruction_error e0.2 = some i := by
    cases hx : m.error.instruction_error e0.2
    · rw [hx] at herr0
      simp at herr0
    · exact ⟨_, rfl⟩
  refine ⟨mm.1, mm.2, { s2 with total_error := s2.total_error + ierr }, ?_, ?_, ?_, ?_, ?_⟩
  · unfold maxDepthTime
    rw [hmm]
  · unfold processOp
    unfold maxDepthTime
    rw [hmm]
    simp only [Option.bind_eq_bind, Option.some_bind, hrun, List.head?_cons, hierr]
  · intro e he
    exact hvalues e he
  · exact hidles
  · rw [htotal, hierr]
    simp only [Option.getD_some]

/-- Witness for C6 on a concrete model, state and two-block operation. -/
theorem run_numerics_op_update_witness :
    0 < (8 : Nat) ∧
    (∃ md mt s2,
      maxDepthTime [0, 0] [5, 3]
          ((0, BicycleISA.Measure ⟨.X, .I⟩) ::
            [(1, BicycleISA.JointMeasure ⟨.X, .I⟩)]) = some (md, mt) ∧
      processOp ⟨⟨8, 12, 120, 130, 471⟩, ⟨1, 2, 3, 4, 5⟩⟩ ⟨[0, 0], [5, 3], 0, 0⟩
          ((0, BicycleISA.Measure ⟨.X, .I⟩) ::
            [(1, BicycleISA.JointMeasure ⟨.X, .I⟩)]) = some s2 ∧
      (∀ e ∈ (0, BicycleISA.Measure ⟨.X, .I⟩) ::
          [(1, BicycleISA.JointMeasure ⟨.X, .I⟩)],
        s2.depths[e.1]? = some (md + depthInc e.2) ∧
        s2.times[e.1]? = some (mt +
          ((⟨⟨8, 12, 120, 130, 471⟩, ⟨1, 2, 3, 4, 5⟩⟩ : Model).timing.timing
            e.2).getD 0)) ∧
      s2.idles = 0 +
        (((0, BicycleISA.Measure ⟨.X, .I⟩) ::
            [(1, BicycleISA.JointMeasure ⟨.X, .I⟩)]).map (fun e =>
          ceil_div (mt - List.getD [5, 3] e.1 0) 8)).sum ∧
      s2.total_error = 0 +
        (((0, BicycleISA.Measure ⟨.X, .I⟩) ::
            [(1, BicycleISA.JointMeasure ⟨.X, .I⟩)]).map (fun e =>
          ceil_div (mt - List.getD [5, 3] e.1 0) 8 * 1)).sum +
        (((⟨⟨8, 12, 120, 130, 471⟩, ⟨1, 2, 3, 4, 5⟩⟩ : Model).error.instruction_error
          (BicycleISA.Measure ⟨.X, .I⟩)).getD 0)) :=
  ⟨by decide,
    run_numerics_op_update ⟨⟨8, 12, 120, 130, 471⟩, ⟨1, 2, 3, 4, 5⟩⟩
      ⟨[0, 0], [5, 3], 0, 0⟩ (0, .Measure ⟨.X, .I⟩)
      [(1, .JointMeasure ⟨.X, .I⟩)] (by decide) (by decide) (by decide)
      (by decide) (by decide) (by decide)⟩

theorem commutes_with_zero_left (r : Nat) : commutes_with 0 r = true := by
  unfold commutes_with
  simp [countOnes_zero]

theorem conjugate_with_zero_left (r : Nat) : conjugate_with 0 r = 0 := by
  unfold conjugate_with
  rw [commutes_with_zero_left]
  simp

theorem implements_of_some (e : MeasurementTableEntry) (c : PauliString)
    (hc : e.conjugated_with = some c) :
    e.implements = conjugate_with e.measurement (zero_pivot c) := by
  unfold MeasurementTableEntry.implements
  rw [hc]

theorem implements_of_none (e : MeasurementTableEntry)
    (hc : e.conjugated_with = none) :
    e.implements = e.measurement := by
  unfold MeasurementTableEntry.implements
  rw [hc]

theorem walkChain_base (T : CompleteMeasurementTable) (fuel k : Nat)
    (himpl : (T.measurements k).implements = k)
    (hc : (T.measurements k).conjugated_with = none) :
    walkChain T fuel (T.measurements k) = some ([], T.measurements k) ∧
      (T.measurements k).measurement = k := by
  have hm : (T.measurements k).measurement = k := by
    rw [implements_of_none _ hc] at himpl
    exact himpl
  constructor
  · unfold walkChain
    rw [hc]
  · exact hm

theorem walkChain_spec (T : CompleteMeasurementTable) (hWF : TableWF T) :
    ∀ fuel k : Nat, 0 < k → k < 4 ^ 12 →
      (T.measurements k).cost ≤ fuel →
      ∃ rots base,
        walkChain T fuel (T.measurements k) = some (rots, base) ∧
        base.conjugated_with = none ∧
        0 < base.measurement ∧ base.measurement < 4 ^ 12 ∧
        T.measurements base.measurement = base ∧
        (∀ c ∈ rots, (T.native_measurements c).isSome) ∧
        List.foldl (fun q c => conjugate_with q (zero_pivot c))
          base.measurement rots.reverse = k := by
  obtain ⟨hW1, hW2, hW3, hW4⟩ := hWF
  intro fuel
  induction fuel with
  | zero =>
    intro k hk0 hk4 hcost
    cases hc : (T.measurements k).conjugated_with with
    | none =>
      obtain ⟨hwalk, hm⟩ := walkChain_base T 0 k (hW1 k hk4) hc
      refine ⟨[], T.measurements k, hwalk, hc, ?_, ?_, ?_, by simp, ?_⟩
      · rw [hm]; exact hk0
      · rw [hm]; exact hk4
      · rw [hm]
      · simp [hm]
    | some c =>
      exfalso
      obtain ⟨_, hlt⟩ := hW2 k hk4 c hc
      omega
  | succ fuel ih =>
    intro k hk0 hk4 hcost
    cases hc : (T.measurements k).conjugated_with with
    | none =>
      obtain ⟨hwalk, hm⟩ := walkChain_base T (fuel + 1) k (hW1 k hk4) hc
      refine ⟨[], T.measurements k, hwalk, hc, ?_, ?_, ?_, by simp, ?_⟩
      · rw [hm]; exact hk0
      · rw [hm]; exact hk4
      · rw [hm]
      · simp [hm]
    | some c =>
      obtain ⟨hmlt, hclt⟩ := hW2 k hk4 c hc
      have himpl := hW1 k hk4
      rw [implements_of_some _ _ hc] at himpl
      have hm0 : 0 < (T.measurements k).measurement := by
        rcases Nat.eq_zero_or_pos (T.measurements k).measurement with h0 | hpos
        · exfalso
          rw [h0, conjugate_with_zero_left] at himpl
          exact absurd himpl.symm (Nat.pos_iff_ne_zero.mp hk0)
        · exact hpos
      have hcost2 :
          (T.measurements ((T.measurements k).measurement)).cost ≤ fuel := by
        omega
      obtain ⟨rots, base, hwalk, hbc, hb0, hb4, hbeq, hnat, hfold⟩ :=
        ih (T.measurements k).measurement hm0 hmlt hcost2
      have hget : T.get (T.measurements k).measurement =
          some (T.measurements ((T.measurements k).measurement)) := by
        unfold CompleteMeasurementTable.get
        rw [if_pos hmlt]
      refine ⟨c :: rots, base, ?_, hbc, hb0, hb4, hbeq, ?_, ?_⟩
      · unfold walkChain
        rw [hc]
        simp only [hget, hwalk]
      · intro c2 hc2
        rcases List.mem_cons.mp hc2 with heq | hmem
        · subst heq
          exact hW4 k hk4 c2 hc
        · exact hnat c2 hmem
      · rw [List.reverse_cons, List.foldl_append, hfold]
        simpa using himpl

theorem mapM_native_some (T : CompleteMeasurementTable) :
    ∀ rots : List PauliString,
      (∀ c ∈ rots, (T.native_measurements c).isSome) →
      ∃ l, rots.mapM (fun c => (T.native_measurements c).map
            (fun nm => NativeMeasurementImpl.mk nm c)) = some l ∧
        l.map (fun n => n.measures) = rots := by
  intro rots
  induction rots with
  | nil => intro _; exact ⟨[], rfl, rfl⟩
  | cons c cs ih =>
    intro hsome
    obtain ⟨nm, hnm⟩ : ∃ nm, T.native_measurements c = some nm := by
      have := hsome c (by simp)
      cases hx : T.native_measurements c
      · rw [hx] at this
        simp at this
      · exact ⟨_, rfl⟩
    obtain ⟨l, hl, hlmap⟩ := ih (fun c2 h2 => hsome c2 (by simp [h2]))
    refine ⟨⟨nm, c⟩ :: l, ?_, ?_⟩
    · rw [List.mapM_cons, hnm, hl]
      rfl
    · simp [hlmap]

theorem implementation_spec (T : CompleteMeasurementTable) (hWF : TableWF T)
    (fuel p : Nat) (hp0 : p ≠ 0) (hp4 : p < 4 ^ 12)
    (hfuel : (T.measurements p).cost ≤ fuel) :
    ∃ impl, T.implementation fuel p = some impl ∧ impl.measures = p ∧
      List.foldl (fun q r => conjugate_with q (zero_pivot r.measures))
        impl.base.measures impl.rotations = p := by
  obtain ⟨rots, base, hwalk, hbc, hb0, hb4, hbeq, hnat, hfold⟩ :=
    walkChain_spec T hWF fuel p (Nat.pos_of_ne_zero hp0) hp4 hfuel
  have hbase_c : (T.measurements base.measurement).conjugated_with = none := by
    rw [hbeq]
    exact hbc
  have hbn : (T.native_measurements base.measurement).isSome :=
    hWF.2.2.1 base.measurement hb0 hb4 hbase_c
  obtain ⟨bn, hbn_eq⟩ : ∃ bn, T.native_measurements base.measurement = some bn := by
    cases hx : T.native_measurements base.measurement
    · rw [hx] at hbn
      simp at hbn
    · exact ⟨_, rfl⟩
  obtain ⟨l, hl, hlmap⟩ := mapM_native_some T rots hnat
  have hget : T.get p = some (T.measurements p) := by
    unfold CompleteMeasurementTable.get
    rw [if_pos hp4]
  refine ⟨⟨⟨bn, base.measurement⟩, l.reverse, p⟩, ?_, rfl, ?_⟩
  · unfold CompleteMeasurementTable.implementation
    rw [if_neg hp0, hget]
    simp only [hwalk, hbn_eq, hl]
  · have hmapfold :
        List.foldl (fun q r => conjugate_with q (zero_pivot r.measures))
          base.measurement l.reverse =
        List.foldl (fun q c => conjugate_with q (zero_pivot c))
          base.measurement (l.reverse.map (fun n => n.measures)) := by
      rw [List.foldl_map]
    have hrevmap : l.reverse.map (fun n => n.measures) = rots.reverse := by
      rw [List.map_reverse, hlmap]
    simp only
    rw [hmapfold, hrevmap]
    exact hfold

/-- C1: on a completed table (whose builder-established invariants are spelled
out in `TableWF`), `implementation(p)` for nonzero `p` returns a
`MeasurementImpl` whose `measures` field is `p`, and folding the listed
rotations over the base measurement's PauliString
(`reconstructed = base.measures(); for r in rotations:
reconstructed = reconstructed.conjugate_with(r.measures().zero_pivot())`)
reproduces `p` exactly. -/
theorem implementation_reconstructs (T : CompleteMeasurementTable)
    (hWF : TableWF T) (fuel p : Nat) (hp0 : p ≠ 0) (hp4 : p < 4 ^ 12)
    (hfuel : (T.measurements p).cost ≤ fuel) :
    ∃ impl, T.implementation fuel p = some impl ∧ impl.measures = p ∧
      List.foldl (fun q r => conjugate_with q (zero_pivot r.measures))
        impl.base.measures impl.rotations = p :=
  implementation_spec T hWF fuel p hp0 hp4 hfuel

theorem trivialTable_wf : TableWF trivialTable := by
  refine ⟨fun i _ => rfl, fun i _ c hc => Option.noConfusion hc,
    fun i _ _ _ => rfl, fun i _ c hc => Option.noConfusion hc⟩

/-- Witness for C1 on the degenerate well-formed table at `p = X1`. -/
theorem implementation_reconstructs_witness :
    TableWF trivialTable ∧ (1 : Nat) ≠ 0 ∧ (1 : Nat) < 4 ^ 12 ∧
      (trivialTable.measurements 1).cost ≤ 1 ∧
      (∃ impl, trivialTable.implementation 1 1 = some impl ∧ impl.measures = 1 ∧
        List.foldl (fun q r => conjugate_with q (zero_pivot r.measures))
          impl.base.measures impl.rotations = 1) :=
  ⟨trivialTable_wf, by decide, by norm_num, by decide,
    implementation_reconstructs trivialTable trivialTable_wf 1 1 (by decide)
      (by norm_num) (by decide)⟩

theorem pivot_bits_mulP (p piv : Nat) (hp : pivot_bits p = 0)
    (hpiv : pivot_bits piv = piv) : pivot_bits (mulP p piv) = piv := by
  unfold pivot_bits mulP at *
  rw [Nat.and_xor_distrib_right, hp, hpiv, Nat.zero_xor]

theorem testBit_of_pivot_zero (p : Nat) (hp : pivot_bits p = 0) :
    p.testBit 0 = false ∧ p.testBit 12 = false := by
  unfold pivot_bits at hp
  constructor
  · have h := congrArg (fun x => Nat.testBit x 0) hp
    simp only [Nat.testBit_land] at h
    have hm : ((1 : Nat) ||| 1 <<< 12).testBit 0 = true := by decide
    rw [hm, Bool.and_true] at h
    simpa using h
  · have h := congrArg (fun x => Nat.testBit x 12) hp
    simp only [Nat.testBit_land] at h
    have hm : ((1 : Nat) ||| 1 <<< 12).testBit 12 = true := by decide
    rw [hm, Bool.and_true] at h
    simpa using h

theorem and_mask_self (p : Nat) (hp : pivot_bits p = 0) (h24 : p < 2 ^ 24) :
    p &&& ((2 ^ 32 - 1) ^^^ ((1 <<< 12) ||| 1)) = p := by
  obtain ⟨h0, h12⟩ := testBit_of_pivot_zero p hp
  apply Nat.eq_of_testBit_eq
  intro i
  rw [Nat.testBit_land]
  by_cases hi0 : i = 0
  · subst hi0
    rw [h0]
    rfl
  · by_cases hi12 : i = 12
    · subst hi12
      rw [h12]
      rfl
    · by_cases hi32 : i < 32
      · have hne0 : ¬ ((0 : Nat) = i) := fun h => hi0 h.symm
        have hne12 : ¬ ((12 : Nat) = i) := fun h => hi12 h.symm
        have hm : ((2 ^ 32 - 1) ^^^ ((1 <<< 12) ||| 1)).testBit i = true := by
          rw [Nat.testBit_xor, Nat.testBit_two_pow_sub_one, Nat.testBit_lor]
          have h1 : (1 : Nat) <<< 12 = 2 ^ 12 := by decide
          have h2 : ((1 : Nat)).testBit i = false := by
            rw [show (1 : Nat) = 2 ^ 0 by norm_num, Nat.testBit_two_pow]
            simp [hne0]
          rw [h1, Nat.testBit_two_pow, h2]
          simp [hi32, hne12]
        rw [hm, Bool.and_true]
      · have hbig : p.testBit i = false :=
          testBit_high_false p i h24 (by omega)
        rw [hbig]
        rfl

theorem zero_pivot_mulP (p piv : Nat) (hp : pivot_bits p = 0) (h24 : p < 2 ^ 24)
    (hpiv : piv &&& ((2 ^ 32 - 1) ^^^ ((1 <<< 12) ||| 1)) = 0) :
    zero_pivot (mulP p piv) = p := by
  unfold zero_pivot mulP
  rw [Nat.and_xor_distrib_right, hpiv, Nat.xor_zero]
  exact and_mask_self p hp h24

theorem minByRotsLen_three (a b c : MeasurementImpl) :
    minByRotsLen [a, b, c] =
      some (if a.rotations.length ≤ b.rotations.length ∧
               a.rotations.length ≤ c.rotations.length then a
            else if b.rotations.length ≤ c.rotations.length then b else c) := by
  simp only [minByRotsLen]
  split_ifs <;> first | rfl | omega

/-- C2: `min_data(p)` for an identity-pivot, data-nonzero `p` returns the one
of the three pivoted `implementation` calls (pivots tried in the order
`X₁, Z₁, Y₁`) with the fewest rotations, ties broken first-wins; its
`measures` field is `p` times the chosen pivot, so its pivot bits are nonzero
and its `zero_pivot` is `p`, and its rotation count is the minimum of the
three counts. -/
theorem min_data_spec (T : CompleteMeasurementTable) (hWF : TableWF T)
    (fuel p : Nat) (_hp0 : p ≠ 0) (hp4 : p < 4 ^ 12) (hpb : pivot_bits p = 0)
    (hfX : (T.measurements (mulP p X1)).cost ≤ fuel)
    (hfZ : (T.measurements (mulP p Z1)).cost ≤ fuel)
    (hfY : (T.measurements (mulP p Y1)).cost ≤ fuel) :
    ∃ iX iZ iY impl,
      T.implementation fuel (mulP p X1) = some iX ∧
      T.implementation fuel (mulP p Z1) = some iZ ∧
      T.implementation fuel (mulP p Y1) = some iY ∧
      iX.measures = mulP p X1 ∧ iZ.measures = mulP p Z1 ∧
      iY.measures = mulP p Y1 ∧
      T.min_data fuel p = some impl ∧
      impl = (if iX.rotations.length ≤ iZ.rotations.length ∧
                 iX.rotations.length ≤ iY.rotations.length then iX
              else if iZ.rotations.length ≤ iY.rotations.length then iZ
              else iY) ∧
      pivot_bits impl.measures ≠ 0 ∧
      zero_pivot impl.measures = p ∧
      impl.rotations.length =
        min (min iX.rotations.length iZ.rotations.length)
          iY.rotations.length := by
  have hp24 : p < 2 ^ 24 := by
    have h := hp4
    norm_num at h ⊢
    omega
  have hpivX : pivot_bits (mulP p X1) = X1 := pivot_bits_mulP p X1 hpb (by decide)
  have hpivZ : pivot_bits (mulP p Z1) = Z1 := pivot_bits_mulP p Z1 hpb (by decide)
  have hpivY : pivot_bits (mulP p Y1) = Y1 := pivot_bits_mulP p Y1 hpb (by decide)
  have hzero : pivot_bits 0 = 0 := by decide
  have hq0X : mulP p X1 ≠ 0 := by
    intro h
    rw [h, hzero] at hpivX
    exact absurd hpivX.symm (by decide)
  have hq0Z : mulP p Z1 ≠ 0 := by
    intro h
    rw [h, hzero] at hpivZ
    exact absurd hpivZ.symm (by decide)
  have hq0Y : mulP p Y1 ≠ 0 := by
    intro h
    rw [h, hzero] at hpivY
    exact absurd hpivY.symm (by decide)
  have h424 : (4 : Nat) ^ 12 = 2 ^ 24 := by norm_num
  have hq4X : mulP p X1 < 4 ^ 12 := by
    rw [h424]
    exact Nat.xor_lt_two_pow hp24 (by decide)
  have hq4Z : mulP p Z1 < 4 ^ 12 := by
    rw [h424]
    exact Nat.xor_lt_two_pow hp24 (by decide)
  have hq4Y : mulP p Y1 < 4 ^ 12 := by
    rw [h424]
    exact Nat.xor_lt_two_pow hp24 (by decide)
  obtain ⟨iX, hiX, hmX, _⟩ := implementation_spec T hWF fuel _ hq0X hq4X hfX
  obtain ⟨iZ, hiZ, hmZ, _⟩ := implementation_spec T hWF fuel _ hq0Z hq4Z hfZ
  obtain ⟨iY, hiY, hmY, _⟩ := implementation_spec T hWF fuel _ hq0Y hq4Y hfY
  have hmap : [X1, Z1, Y1].mapM
      (fun piv => T.implementation fuel (mulP p piv)) = some [iX, iZ, iY] := by
    simp only [List.mapM_cons, List.mapM_nil, hiX, hiZ, hiY]
    rfl
  have hmin : T.min_data fuel p =
      some (if iX.rotations.length ≤ iZ.rotations.length ∧
               iX.rotations.length ≤ iY.rotations.length then iX
            else if iZ.rotations.length ≤ iY.rotations.length then iZ
            else iY) := by
    unfold CompleteMeasurementTable.min_data
    rw [if_neg (Nat.not_lt.mpr (Nat.le_of_lt hp4)), if_neg (by simp [hpb]), hmap]
    exact minByRotsLen_three iX iZ iY
  refine ⟨iX, iZ, iY, _, hiX, hiZ, hiY, hmX, hmZ, hmY, hmin, rfl, ?_, ?_, ?_⟩
  · by_cases h1 : iX.rotations.length ≤ iZ.rotations.length ∧
        iX.rotations.length ≤ iY.rotations.length
    · rw [if_pos h1, hmX, hpivX]
      decide
    · rw [if_neg h1]
      by_cases h2 : iZ.rotations.length ≤ iY.rotations.length
      · rw [if_pos h2, hmZ, hpivZ]
        decide
      · rw [if_neg h2, hmY, hpivY]
        decide
  · have hmaskX : X1 &&& ((2 ^ 32 - 1) ^^^ ((1 <<< 12) ||| 1)) = 0 := by decide
    have hmaskZ : Z1 &&& ((2 ^ 32 - 1) ^^^ ((1 <<< 12) ||| 1)) = 0 := by decide
    have hmaskY : Y1 &&& ((2 ^ 32 - 1) ^^^ ((1 <<< 12) ||| 1)) = 0 := by decide
    by_cases h1 : iX.rotations.length ≤ iZ.rotations.length ∧
        iX.rotations.length ≤ iY.rotations.length
    · rw [if_pos h1, hmX]
      exact zero_pivot_mulP p X1 hpb hp24 hmaskX
    · rw [if_neg h1]
      by_cases h2 : iZ.rotations.length ≤ iY.rotations.length
      · rw [if_pos h2, hmZ]
        exact zero_pivot_mulP p Z1 hpb hp24 hmaskZ
      · rw [if_neg h2, hmY]
        exact zero_pivot_mulP p Y1 hpb hp24 hmaskY
  · by_cases h1 : iX.rotations.length ≤ iZ.rotations.length ∧
        iX.rotations.length ≤ iY.rotations.length
    · rw [if_pos h1]
      omega
    · rw [if_neg h1]
      by_cases h2 : iZ.rotations.length ≤ iY.rotations.length
      · rw [if_pos h2]
        omega
      · rw [if_neg h2]
        omega

/-- Witness for C2 on the degenerate well-formed table at `p = X2`
(X on data qubit 1, identity on the pivot). -/
theorem min_data_spec_witness :
    TableWF trivialTable ∧ (2 : Nat) ≠ 0 ∧ (2 : Nat) < 4 ^ 12 ∧
      pivot_bits 2 = 0 ∧
      (trivialTable.measurements (mulP 2 X1)).cost ≤ 1 ∧
      (trivialTable.measurements (mulP 2 Z1)).cost ≤ 1 ∧
      (trivialTable.measurements (mulP 2 Y1)).cost ≤ 1 ∧
      (∃ iX iZ iY impl,
        trivialTable.implementation 1 (mulP 2 X1) = some iX ∧
        trivialTable.implementation 1 (mulP 2 Z1) = some iZ ∧
        trivialTable.implementation 1 (mulP 2 Y1) = some iY ∧
        iX.measures = mulP 2 X1 ∧ iZ.measures = mulP 2 Z1 ∧
        iY.measures = mulP 2 Y1 ∧
        trivialTable.min_data 1 2 = some impl ∧
        impl = (if iX.rotations.length ≤ iZ.rotations.length ∧
                   iX.rotations.length ≤ iY.rotations.length then iX
                else if iZ.rotations.length ≤ iY.rotations.length then iZ
                else iY) ∧
        pivot_bits impl.measures ≠ 0 ∧
        zero_pivot impl.measures = 2 ∧
        impl.rotations.length =
          min (min iX.rotations.length iZ.rotations.length)
            iY.rotations.length) :=
  ⟨trivialTable_wf, by decide, by norm_num, by decide, by decide, by decide,
    by decide,
    min_data_spec trivialTable trivialTable_wf 1 2 (by decide) (by norm_num)
      (by decide) (by decide) (by decide) (by decide)⟩

theorem mapM_eq_map_of {α β : Type} (f : α → Option β) (g : α → β) :
    ∀ l : List α, (∀ x ∈ l, f x = some (g x)) → l.mapM f = some (l.map g) := by
  intro l
  induction l with
  | nil => intro _; rfl
  | cons a t ih =>
    intro h
    rw [List.mapM_cons, h a (by simp), ih (fun x hx => h x (by simp [hx]))]
    rfl

theorem mapM_pres {α β : Type} (f : α → Option β) (P : β → Prop) :
    ∀ l : List α, (∀ x ∈ l, ∃ y, f x = some y ∧ P y) →
      ∃ l2, l.mapM f = some l2 ∧ ∀ y ∈ l2, P y := by
  intro l
  induction l with
  | nil => intro _; exact ⟨[], rfl, by simp⟩
  | cons a t ih =>
    intro h
    obtain ⟨y, hy, hPy⟩ := h a (by simp)
    obtain ⟨l2, hl2, hP2⟩ := ih (fun x hx => h x (by simp [hx]))
    refine ⟨y :: l2, ?_, ?_⟩
    · rw [List.mapM_cons, hy, hl2]
      rfl
    · intro z hz
      rcases List.mem_cons.mp hz with hz | hz
      · rw [hz]; exact hPy
      · exact hP2 z hz

theorem extend_basis_multiple (n : Nat) :
    extend_basis (List.replicate (11 * n) Pauli.I) =
      List.replicate (11 * n) Pauli.I := by
  unfold extend_basis
  rw [if_pos]
  rw [List.length_replicate]
  exact Nat.mul_mod_right 11 n

theorem chunks11_replicate :
    ∀ n, chunks11 (List.replicate (11 * n) Pauli.I) =
      List.replicate n (List.replicate 11 Pauli.I) := by
  intro n
  induction n with
  | zero =>
    unfold chunks11
    simp
  | succ k ih =>
    unfold chunks11
    rw [if_neg (by rw [List.length_replicate]; omega)]
    rw [List.take_replicate, List.drop_replicate]
    have h1 : 11 ⊓ (11 * (k + 1)) = 11 := by omega
    have h2 : 11 * (k + 1) - 11 = 11 * k := by omega
    rw [h1, h2, ih]
    rfl

theorem blockEntry_trivial (T : CompleteMeasurementTable) (fuel : Nat)
    (pe : Pauli) :
    blockEntry T fuel pe (List.replicate 11 Pauli.I) =
      some (none, BasisChanger.default) := by
  unfold blockEntry
  rw [if_pos (by decide)]

theorem positionSome_replicate_none :
    ∀ (k i : Nat), positionSome i (List.replicate k none) = none := by
  intro k
  induction k with
  | zero => intro i; rfl
  | succ m ih =>
    intro i
    show positionSome i (none :: List.replicate m none) = none
    unfold positionSome
    exact ih (i + 1)

theorem preRotations_replicate_none :
    ∀ (k i : Nat), preRotations i (List.replicate k none) = some [] := by
  intro k
  induction k with
  | zero => intro i; rfl
  | succ m ih =>
    intro i
    show preRotations i (none :: List.replicate m none) = some []
    unfold preRotations
    exact ih (i + 1)

theorem nativeMeasOps_replicate_none :
    ∀ (k i : Nat), nativeMeasOps i (List.replicate k none) = [] := by
  intro k
  induction k with
  | zero => intro i; rfl
  | succ m ih =>
    intro i
    show nativeMeasOps i (none :: List.replicate m none) = []
    unfold nativeMeasOps
    exact ih (i + 1)

theorem uncomputeOps_replicate_none :
    ∀ (k i : Nat), uncomputeOps i (List.replicate k none) =
      (List.range' i k).map
        (fun b => ([(b, BicycleISA.Measure ⟨.X, .I⟩)] : Operation)) := by
  intro k
  induction k with
  | zero => intro i; rfl
  | succ m ih =>
    intro i
    show uncomputeOps i (none :: List.replicate m none) = _
    unfold uncomputeOps
    rw [List.range'_succ, List.map_cons, ih (i + 1)]

theorem blockInstrsRot_replicate (T : CompleteMeasurementTable)
    (fuel n : Nat) :
    ∀ (k i : Nat),
      blockInstrsRot T fuel n i
          (List.replicate k (List.replicate 11 Pauli.I)) =
        some (List.replicate k (none, BasisChanger.default)) := by
  intro k
  induction k with
  | zero => intro i; rfl
  | succ m ih =>
    intro i
    show blockInstrsRot T fuel n i
        (List.replicate 11 Pauli.I :: List.replicate m (List.replicate 11 Pauli.I)) = _
    unfold blockInstrsRot
    rw [blockEntry_trivial, ih (i + 1)]
    rfl

theorem ghz_meas_single (s : Nat) : ghz_meas s 1 = some [] := by
  unfold ghz_meas
  rw [if_neg (by omega)]
  have h1 : rangeStep2 s (s + 1 - 1) = [] := by
    unfold rangeStep2
    have : (s + 1 - 1 - s + 1) / 2 = 0 := by omega
    rw [this]
    rfl
  have h2 : rangeStep2 (s + 1) (s + 1 - 1) = [] := by
    unfold rangeStep2
    have : (s + 1 - 1 - (s + 1) + 1) / 2 = 0 := by omega
    rw [this]
    rfl
  rw [h1, h2]
  rfl

theorem change_basis_default_singleton (n b : Nat) (isa isa2 : BicycleISA)
    (hb : b < n)
    (hc : BasisChanger.default.change_isa_legacy isa = some isa2) :
    change_basis (List.replicate n BasisChanger.default) [(b, isa)] =
      some [(b, isa2)] := by
  unfold change_basis
  rw [List.mapM_cons]
  have hget : (List.replicate n BasisChanger.default)[b]? =
      some BasisChanger.default := by
    rw [List.getElem?_replicate, if_pos hb]
  simp only [hget, hc, Option.map_some]
  rfl

/-- C10: on an all-identity basis covering `N ≥ 1` blocks, the legacy
`compile_measurement` panics while computing the interval of non-trivial
blocks for GHZ weaving (`position(...).unwrap()` on an all-`None` list),
whereas `compile_rotation` defaults the GHZ start to the magic block `N − 1`
and succeeds, emitting only single-block operations (the GHZ weave over the
single magic block is empty). -/
theorem compile_all_identity_basis (n : Nat) (T : CompleteMeasurementTable)
    (fuel : Nat) (rots : List SingleRotation) (hn : 1 ≤ n) :
    compile_measurement n T fuel (List.replicate (11 * n) .I) = none ∧
    (∃ out,
      compile_rotation n T fuel rots (List.replicate (11 * n) .I) = some out ∧
      ∀ op ∈ out, op.length = 1) := by
  have hmapM : (List.replicate n (List.replicate 11 Pauli.I)).mapM
      (blockEntry T fuel .Y) =
      some (List.replicate n
        ((none : Option MeasurementImpl), BasisChanger.default)) := by
    rw [mapM_eq_map_of _
      (fun _ => ((none : Option MeasurementImpl), BasisChanger.default)) _
      (fun x hx => by
        rw [List.eq_of_mem_replicate hx]
        exact blockEntry_trivial T fuel .Y)]
    rw [List.map_replicate]
  constructor
  · unfold compile_measurement
    rw [extend_basis_multiple, chunks11_replicate, hmapM]
    simp only [List.map_replicate, List.length_replicate, lt_irrefl,
      if_false, preRotations_replicate_none, positionSome_replicate_none]
    cases hprep : (List.range n).mapM (fun bi =>
        change_basis (List.replicate n BasisChanger.default)
          [(bi, BicycleISA.Measure ⟨.X, .I⟩)]) with
    | none => simp [hprep]
    | some prep => simp [hprep]
  · have hP : ∀ op ∈ ((List.range (n - 1)).map (fun bi =>
          ([(bi, BicycleISA.Measure ⟨.X, .I⟩)] : Operation)) ++
        [[(n - 1, BicycleISA.Measure ⟨.Y, .I⟩)]]),
        ∃ y, change_basis (List.replicate n BasisChanger.default) op = some y ∧
          y.length = 1 := by
      intro op hop
      rcases List.mem_append.mp hop with hop | hop
      · obtain ⟨bi, hbi, rfl⟩ := List.mem_map.mp hop
        have hbilt : bi < n := by
          have := List.mem_range.mp hbi
          omega
        exact ⟨[(bi, BicycleISA.JointMeasure ⟨.X, .I⟩)],
          change_basis_default_singleton n bi (BicycleISA.Measure ⟨.X, .I⟩)
            (BicycleISA.JointMeasure ⟨.X, .I⟩) hbilt (by decide), rfl⟩
      · have hop2 : op = [(n - 1, BicycleISA.Measure ⟨.Y, .I⟩)] := by
          simpa using hop
        subst hop2
        exact ⟨[(n - 1, BicycleISA.JointMeasure ⟨.Y, .I⟩)],
          change_basis_default_singleton n (n - 1)
            (BicycleISA.Measure ⟨.Y, .I⟩) (BicycleISA.JointMeasure ⟨.Y, .I⟩)
            (by omega) (by decide), rfl⟩
    obtain ⟨prep, hprep, hprepP⟩ := mapM_pres _ _ _ hP
    have hpos : positionSome 0 (List.replicate n (none : Option MeasurementImpl)) =
        none := positionSome_replicate_none n 0
    have hghz : ghz_meas ((positionSome 0
          (List.replicate n (none : Option MeasurementImpl))).getD (n - 1))
        (n - (positionSome 0
          (List.replicate n (none : Option MeasurementImpl))).getD (n - 1)) =
        some [] := by
      rw [hpos]
      show ghz_meas (n - 1) (n - (n - 1)) = some []
      have h1 : n - (n - 1) = 1 := by omega
      rw [h1]
      exact ghz_meas_single (n - 1)
    have htgP : ∀ r ∈ rots, ∃ op, tgateOf n r = some op ∧
        (∃ y, change_basis (List.replicate n BasisChanger.default) op = some y ∧
          y.length = 1) := by
      intro r _
      cases r with
      | Z dagger =>
        refine ⟨[(n - 1, BicycleISA.TGate ⟨.Z, false, dagger⟩)], rfl, ?_⟩
        exact ⟨[(n - 1, BicycleISA.TGate ⟨.Z, false, dagger⟩)],
          change_basis_default_singleton n (n - 1)
            (BicycleISA.TGate ⟨.Z, false, dagger⟩)
            (BicycleISA.TGate ⟨.Z, false, dagger⟩) (by omega) rfl, rfl⟩
      | X dagger =>
        refine ⟨[(n - 1, BicycleISA.TGate ⟨.X, false, dagger⟩)], rfl, ?_⟩
        exact ⟨[(n - 1, BicycleISA.TGate ⟨.X, false, dagger⟩)],
          change_basis_default_singleton n (n - 1)
            (BicycleISA.TGate ⟨.X, false, dagger⟩)
            (BicycleISA.TGate ⟨.X, false, dagger⟩) (by omega) rfl, rfl⟩
    obtain ⟨tg, htg, htgP2⟩ := mapM_pres (tgateOf n) _ rots htgP
    have huncEq : uncomputeOps 0
        ((List.replicate n (none : Option MeasurementImpl)).take (n - 1)) =
        (List.range' 0 (n - 1)).map
          (fun b => ([(b, BicycleISA.Measure ⟨.X, .I⟩)] : Operation)) := by
      rw [List.take_replicate]
      have h1 : (n - 1) ⊓ n = n - 1 := by omega
      rw [h1, uncomputeOps_replicate_none]
    have hmidP : ∀ op ∈ (([] : List Operation) ++ tg ++
        uncomputeOps 0
          ((List.replicate n (none : Option MeasurementImpl)).take (n - 1)) ++
        [[(n - 1, BicycleISA.Measure ⟨.Z, .I⟩)]]),
        ∃ y, change_basis (List.replicate n BasisChanger.default) op = some y ∧
          y.length = 1 := by
      intro op hop
      rcases List.mem_append.mp hop with hop | hop
      · rcases List.mem_append.mp hop with hop | hop
        · rcases List.mem_append.mp hop with hop | hop
          · simp at hop
          · exact htgP2 op hop
        · rw [huncEq] at hop
          obtain ⟨b, hb, rfl⟩ := List.mem_map.mp hop
          obtain ⟨i, hi, rfl⟩ := List.mem_range'.mp hb
          have hblt : 0 + 1 * i < n := by omega
          exact ⟨[(0 + 1 * i, BicycleISA.JointMeasure ⟨.X, .I⟩)],
            change_basis_default_singleton n (0 + 1 * i)
              (BicycleISA.Measure ⟨.X, .I⟩)
              (BicycleISA.JointMeasure ⟨.X, .I⟩) hblt (by decide), rfl⟩
      · have hop2 : op = [(n - 1, BicycleISA.Measure ⟨.Z, .I⟩)] := by
          simpa using hop
        subst hop2
        exact ⟨[(n - 1, BicycleISA.JointMeasure ⟨.Z, .I⟩)],
          change_basis_default_singleton n (n - 1)
            (BicycleISA.Measure ⟨.Z, .I⟩) (BicycleISA.JointMeasure ⟨.Z, .I⟩)
            (by omega) (by decide), rfl⟩
    obtain ⟨middle, hmid, hmidP2⟩ := mapM_pres _ _ _ hmidP
    refine ⟨([] : List Operation) ++ prep ++ [] ++ middle ++ [], ?_, ?_⟩
    · unfold compile_rotation
      rw [if_neg (by omega), extend_basis_multiple, chunks11_replicate,
        blockInstrsRot_replicate]
      simp only [List.map_replicate, List.length_replicate, lt_irrefl,
        if_false, preRotations_replicate_none]
      rw [hprep]
      simp only [hghz, tgateOps, htg, nativeMeasOps_replicate_none]
      rw [hmid]
    · intro op hop
      simp only [List.nil_append, List.append_nil, List.mem_append] at hop
      rcases hop with hop | hop
      · exact hprepP op hop
      · exact hmidP2 op hop

/-- Witness for C10 at one block, the degenerate table, and one synthesized
T rotation. -/
theorem compile_all_identity_basis_witness :
    1 ≤ 1 ∧
    (compile_measurement 1 trivialTable 0 (List.replicate (11 * 1) .I) =
        none ∧
      (∃ out, compile_rotation 1 trivialTable 0 [SingleRotation.Z false]
          (List.replicate (11 * 1) .I) = some out ∧
        ∀ op ∈ out, op.length = 1)) :=
  ⟨by decide, compile_all_identity_basis 1 trivialTable 0
    [SingleRotation.Z false] (by decide)⟩
